import Mathlib

/-!
# A verification model of the matching engine

Shallow embedding of the order-book matching engine:

* core/order.py      — the order record and the decimal helper
* core/orderbook.py  — price levels, the per-symbol book, submit_order
* routes/orders.py   — cancel_order, modify_order (the stateful parts)
* core/storage.py    — the stop-order trigger scan in on_trade_callback

Modelling conventions.

* Prices, quantities, fees and totals are modelled as exact rationals.
  The source stores them as Python Decimal with 18 significant digits and
  ROUND_DOWN; every comparison on Decimal is an exact value comparison,
  and additions/subtractions/multiplications are exact whenever the result
  fits in 18 significant digits.  The fixed-precision truncating
  multiplication itself is modelled separately (structure Dec below) for
  the fee-accounting claim.
* Python dicts keyed by id are modelled as association lists looked up by
  first match; SortedDict sides are modelled as lists of (price, level)
  pairs kept best-price-first: asks ascending (peekitem(0) is the head),
  bids descending (peekitem(-1) is the head).
* uuid identifiers, timestamps and logging are nondeterministic or pure
  diagnostics and are omitted; the trade_id is represented by the
  trade_seq component that the engine itself increments.
* Async callbacks (websocket broadcasts) perform no book mutation and are
  omitted; the stop-registry scan that on_trade_callback performs is
  modelled as a pure function from the registry and the trade to the new
  registry plus the list of resubmitted (now market) orders.
-/

namespace Engine

/-- Side of an order: "buy" or "sell" (core/order.py). -/
inductive Side where
  | buy
  | sell
deriving DecidableEq, Repr

/-- Order type strings accepted by the engine (core/order.py). -/
inductive OrderType where
  | market
  | limit
  | ioc
  | fok
  | stoploss
deriving DecidableEq, Repr

/-- The internal order object (core/order.py, class Order).  The uuid id is
an opaque string; timestamp and created_at are diagnostics and omitted. -/
structure Order where
  id : String
  symbol : String
  side : Side
  order_type : OrderType
  quantity : ℚ
  price : Option ℚ
  remaining : ℚ
deriving DecidableEq, Repr

/-- Result statuses produced by submit_order (core/orderbook.py). -/
inductive OrderStatus where
  | filled
  | partially_filled
  | resting
  | canceled
deriving DecidableEq, Repr

/-- A trade record as built by make_trade (core/orderbook.py lines 124-142).
The wall-clock timestamp and the uuid component of trade_id are omitted;
seq is the trade_seq counter value embedded in the trade_id. -/
structure Trade where
  seq : ℕ
  symbol : String
  price : ℚ
  quantity : ℚ
  trade_value : ℚ
  aggressor_side : Side
  maker_order_id : String
  taker_order_id : String
  maker_fee : ℚ
  taker_fee : ℚ
deriving DecidableEq, Repr

/-- A price level: FIFO queue of resting orders plus the cached total
(core/orderbook.py, class PriceLevel). -/
structure PriceLevel where
  queue : List Order
  total : ℚ
deriving DecidableEq, Repr

/-- PriceLevel.add: append to the queue tail, increase total by the
order's remaining. -/
def PriceLevel.add (lvl : PriceLevel) (o : Order) : PriceLevel :=
  { queue := lvl.queue ++ [o], total := lvl.total + o.remaining }

/-- The per-symbol order book (core/orderbook.py, class OrderBook).
asks is kept ascending by price (best = head), bids descending by price
(best = head); this mirrors the SortedDict plus the reversed iteration
the source uses to reach the best bid. -/
structure OrderBook where
  symbol : String
  asks : List (ℚ × PriceLevel)
  bids : List (ℚ × PriceLevel)
  orders : List (String × Order)
  trade_seq : ℕ
deriving DecidableEq, Repr

/-- A fresh book for a symbol (OrderBook.__init__). -/
def empty_book (sym : String) : OrderBook :=
  { symbol := sym, asks := [], bids := [], orders := [], trade_seq := 0 }

/-! ## Association-list helpers (dict / SortedDict behaviour) -/

/-- dict lookup by order id (first match). -/
def lookupOrd : List (String × Order) → String → Option Order
  | [], _ => none
  | kv :: rest, k => if kv.1 = k then some kv.2 else lookupOrd rest k

/-- dict deletion by order id (removes the first matching entry; dict keys
are unique so at most one entry matches). -/
def eraseOrd : List (String × Order) → String → List (String × Order)
  | [], _ => []
  | kv :: rest, k => if kv.1 = k then rest else kv :: eraseOrd rest k

/-- dict assignment: replace the first entry with this key, or append. -/
def upsertOrd (l : List (String × Order)) (k : String) (v : Order) :
    List (String × Order) :=
  if l.any (fun kv => kv.1 = k) then
    l.map (fun kv => if kv.1 = k then (kv.1, v) else kv)
  else l ++ [(k, v)]

/-- Find the price level stored under a price key (first match). -/
def findLevel : List (ℚ × PriceLevel) → ℚ → Option PriceLevel
  | [], _ => none
  | e :: rest, p => if e.1 = p then some e.2 else findLevel rest p

/-- Replace the level stored under a price key (first match). -/
def updateLevel : List (ℚ × PriceLevel) → ℚ → (PriceLevel → PriceLevel) →
    List (ℚ × PriceLevel)
  | [], _, _ => []
  | e :: rest, p, f => if e.1 = p then (p, f e.2) :: rest else e :: updateLevel rest p f

/-- Delete the level stored under a price key (first match). -/
def eraseLevel : List (ℚ × PriceLevel) → ℚ → List (ℚ × PriceLevel)
  | [], _ => []
  | e :: rest, p => if e.1 = p then rest else e :: eraseLevel rest p

/-- Does the new price sort before the given price on this side?
Same-side books: bids are kept descending, asks ascending. -/
def levelBefore (s : Side) (p q : ℚ) : Bool :=
  match s with
  | Side.buy => decide (q < p)
  | Side.sell => decide (p < q)

/-- Insert a new price level keeping the side's sort order. -/
def insertLevel (s : Side) (p : ℚ) (lvl : PriceLevel) :
    List (ℚ × PriceLevel) → List (ℚ × PriceLevel)
  | [] => [(p, lvl)]
  | e :: rest =>
    if levelBefore s p e.1 then (p, lvl) :: e :: rest
    else e :: insertLevel s p lvl rest

/-- _ensure_level followed by level.add(order): reuse the existing level at
this price, or create a fresh one in sort position
(core/orderbook.py lines 51-54 and 269-272). -/
def ensure_level_add (s : Side) (p : ℚ) (o : Order)
    (lst : List (ℚ × PriceLevel)) : List (ℚ × PriceLevel) :=
  if lst.any (fun e => e.1 = p) then
    updateLevel lst p (fun lvl => lvl.add o)
  else
    insertLevel s p (PriceLevel.add { queue := [], total := 0 } o) lst

/-- _remove_price_if_empty (core/orderbook.py lines 56-60). -/
def remove_price_if_empty (lst : List (ℚ × PriceLevel)) (p : ℚ) :
    List (ℚ × PriceLevel) :=
  match findLevel lst p with
  | none => lst
  | some lvl => if lvl.queue.isEmpty then eraseLevel lst p else lst

/-- _opposite_book (core/orderbook.py line 93). -/
def OrderBook.opposite_book (b : OrderBook) (s : Side) : List (ℚ × PriceLevel) :=
  match s with
  | Side.buy => b.asks
  | Side.sell => b.bids

/-- _same_book (core/orderbook.py line 96). -/
def OrderBook.same_book (b : OrderBook) (s : Side) : List (ℚ × PriceLevel) :=
  match s with
  | Side.buy => b.bids
  | Side.sell => b.asks

/-- Write back the opposite-side map after matching. -/
def OrderBook.set_opposite (b : OrderBook) (s : Side)
    (lst : List (ℚ × PriceLevel)) : OrderBook :=
  match s with
  | Side.buy => { b with asks := lst }
  | Side.sell => { b with bids := lst }

/-- Write back the same-side map after resting / cancel / modify. -/
def OrderBook.set_same (b : OrderBook) (s : Side)
    (lst : List (ℚ × PriceLevel)) : OrderBook :=
  match s with
  | Side.buy => { b with bids := lst }
  | Side.sell => { b with asks := lst }

/-- Write back the id index. -/
def OrderBook.with_orders (b : OrderBook) (os : List (String × Order)) :
    OrderBook :=
  { b with orders := os }

/-- Write back the id index and the trade counter after matching. -/
def OrderBook.with_orders_seq (b : OrderBook) (os : List (String × Order))
    (ts : ℕ) : OrderBook :=
  { b with orders := os, trade_seq := ts }

/-! ## The matcher (OrderBook.submit_order) -/

/-- MAKER_FEE_RATE = D("-0.0002") (core/orderbook.py line 120). -/
def MAKER_FEE_RATE : ℚ := -2 / 10000

/-- TAKER_FEE_RATE = D("0.0010") (core/orderbook.py line 121). -/
def TAKER_FEE_RATE : ℚ := 10 / 10000

/-- make_trade (core/orderbook.py lines 124-142): trade_value = price*qty,
maker_fee = trade_value * MAKER_FEE_RATE, taker_fee = trade_value *
TAKER_FEE_RATE.  The seq argument is the already-incremented trade_seq. -/
def make_trade (sym : String) (seq : ℕ) (price qty : ℚ)
    (makerId takerId : String) (aggr : Side) : Trade :=
  { seq := seq
    symbol := sym
    price := price
    quantity := qty
    trade_value := price * qty
    aggressor_side := aggr
    maker_order_id := makerId
    taker_order_id := takerId
    maker_fee := price * qty * MAKER_FEE_RATE
    taker_fee := price * qty * TAKER_FEE_RATE }

/-- Output of the inner (per-level) matching loop: the incoming order's
remaining, the level queue and total left behind, the trades emitted, the
ids of fully filled resting orders deleted from the id index, the
(id, new remaining) of a partially filled resting head (the source mutates
the shared Order object, which the id index also references), and the
trade_seq afterwards. -/
structure LevelOut where
  rem : ℚ
  queue : List Order
  total : ℚ
  trades : List Trade
  removed : List String
  upd : List (String × ℚ)
  seq : ℕ
deriving Repr

/-- The inner while loop of submit_order (core/orderbook.py lines 207-231):
while the incoming order has remaining and the level queue is non-empty,
trade against the oldest resting order.  trade quantity is
min(order.remaining, resting.remaining); the execution price is the
resting order's own price, falling back to the level's price key; both
remainings and the level total decrease by the trade quantity; a fully
filled resting order is popped and dropped from the id index.  When the
resting head is only partially consumed the incoming remaining has just
reached zero, so the loop stops there. -/
def match_level (aggr : Side) (takerId sym : String) (bp : ℚ) :
    ℚ → List Order → ℚ → ℕ → LevelOut
  | rem, [], total, seq =>
    { rem := rem, queue := [], total := total, trades := [], removed := [],
      upd := [], seq := seq }
  | rem, resting :: rest, total, seq =>
    if 0 < rem then
      let tqty := min rem resting.remaining
      let execPrice := resting.price.getD bp
      let tr := make_trade sym (seq + 1) execPrice tqty resting.id takerId aggr
      if resting.remaining - tqty = 0 then
        let out := match_level aggr takerId sym bp (rem - tqty) rest
          (total - tqty) (seq + 1)
        { out with trades := tr :: out.trades, removed := resting.id :: out.removed }
      else
        { rem := rem - tqty,
          queue := { resting with remaining := resting.remaining - tqty } :: rest,
          total := total - tqty, trades := [tr], removed := [],
          upd := [(resting.id, resting.remaining - tqty)], seq := seq + 1 }
    else
      { rem := rem, queue := resting :: rest, total := total, trades := [],
        removed := [], upd := [], seq := seq }

/-- price_acceptable (core/orderbook.py lines 193-200): market orders accept
anything; a buy accepts best_price <= order.price, a sell accepts
best_price >= order.price.  A non-market order without a price cannot be
routed here (the source would raise comparing Decimal with None); the
model returns false. -/
def price_acceptable (aggr : Side) (isMkt : Bool) (oprice : Option ℚ)
    (bp : ℚ) : Bool :=
  isMkt ||
    match oprice with
    | some lp =>
      match aggr with
      | Side.buy => decide (bp ≤ lp)
      | Side.sell => decide (lp ≤ bp)
    | none => false

/-- Output of the outer matching loop over opposite price levels. -/
structure LoopOut where
  rem : ℚ
  opp : List (ℚ × PriceLevel)
  trades : List Trade
  removed : List String
  upd : List (String × ℚ)
  seq : ℕ
deriving Repr

/-- The outer matching loop of submit_order (core/orderbook.py lines
187-240): while the incoming order has remaining, take the best opposite
level (the head of the best-first list), stop if its price is not
acceptable, otherwise match against it FIFO; drop the level when its
queue has emptied and move on to the next one.  When the level survives
the inner loop, the incoming remaining has reached zero and the outer
while condition fails. -/
def match_loop (aggr : Side) (isMkt : Bool) (oprice : Option ℚ)
    (takerId sym : String) :
    ℚ → List (ℚ × PriceLevel) → ℕ → LoopOut
  | rem, [], seq =>
    { rem := rem, opp := [], trades := [], removed := [], upd := [], seq := seq }
  | rem, (bp, lvl) :: rest, seq =>
    if 0 < rem then
      if price_acceptable aggr isMkt oprice bp then
        let lo := match_level aggr takerId sym bp rem lvl.queue lvl.total seq
        if lo.queue.isEmpty then
          let out := match_loop aggr isMkt oprice takerId sym lo.rem rest lo.seq
          { rem := out.rem, opp := out.opp, trades := lo.trades ++ out.trades,
            removed := lo.removed ++ out.removed, upd := lo.upd ++ out.upd,
            seq := out.seq }
        else
          { rem := lo.rem, opp := (bp, { queue := lo.queue, total := lo.total }) :: rest,
            trades := lo.trades, removed := lo.removed, upd := lo.upd, seq := lo.seq }
      else
        { rem := rem, opp := (bp, lvl) :: rest, trades := [], removed := [],
          upd := [], seq := seq }
    else
      { rem := rem, opp := (bp, lvl) :: rest, trades := [], removed := [],
        upd := [], seq := seq }

/-- The FOK pre-check sum over acceptable opposite levels (core/orderbook.py
lines 161-174): a limit FOK buy sums ask levels breaking at the first
price above order.price; a sell sums bid levels (iterated best-first)
breaking at the first price below order.price. -/
def fok_acceptable_total (s : Side) (lp : ℚ) :
    List (ℚ × PriceLevel) → ℚ
  | [] => 0
  | e :: rest =>
    match s with
    | Side.buy => if lp < e.1 then 0 else e.2.total + fok_acceptable_total s lp rest
    | Side.sell => if e.1 < lp then 0 else e.2.total + fok_acceptable_total s lp rest

/-- Sum of level totals over a whole side (the market-FOK branch of the
pre-check, core/orderbook.py lines 158-160; unreachable in practice since
a fok order is never of market type). -/
def sum_book_total (lst : List (ℚ × PriceLevel)) : ℚ :=
  (lst.map (fun e => e.2.total)).sum

/-- The result envelope returned by submit_order. -/
structure SubmitResult where
  order_id : String
  status : OrderStatus
  reason : Option String
  trades : List Trade
deriving DecidableEq, Repr

/-- Delete the given ids from the id index (fully filled makers). -/
def removeIds (idx : List (String × Order)) (ids : List String) :
    List (String × Order) :=
  ids.foldl (fun acc i => eraseOrd acc i) idx

/-- Propagate the mutated remaining of a partially filled maker to the id
index (the source shares one Order object between queue and index). -/
def apply_upd (idx : List (String × Order)) (upd : List (String × ℚ)) :
    List (String × Order) :=
  upd.foldl
    (fun acc iu =>
      acc.map (fun kv =>
        if kv.1 = iu.1 then (kv.1, { kv.2 with remaining := iu.2 }) else kv))
    idx

/-- The matching-loop call submit_order performs, exposed as a definition so
theorems can speak about the remainder and trades after the loop. -/
def submit_match (b : OrderBook) (o : Order) : LoopOut :=
  match_loop o.side (o.order_type == OrderType.market) o.price o.id b.symbol
    o.remaining (b.opposite_book o.side) b.trade_seq

/-- The body of submit_order after the FOK pre-check (core/orderbook.py
lines 184-286): run the matching loop, write back the opposite side, the
id index and the trade counter, then dispatch on order type:
IOC never rests (partial/canceled/filled); FOK past the pre-check returns
canceled with an empty trade list when remainder is left (defensive path)
else filled; a limit with remainder rests at order.price and registers in
the id index (resting when no trades, else partially filled); any other
remainder (market) is dropped; no remainder means filled. -/
def submit_core (b : OrderBook) (o : Order) : SubmitResult × OrderBook :=
  let lo := submit_match b o
  let orders1 := apply_upd (removeIds b.orders lo.removed) lo.upd
  let b1 : OrderBook :=
    (b.set_opposite o.side lo.opp).with_orders_seq orders1 lo.seq
  if o.order_type = OrderType.ioc then
    if 0 < lo.rem then
      ({ order_id := o.id,
         status := if lo.trades.isEmpty then OrderStatus.canceled
           else OrderStatus.partially_filled,
         reason := none, trades := lo.trades }, b1)
    else
      ({ order_id := o.id, status := OrderStatus.filled, reason := none,
         trades := lo.trades }, b1)
  else if o.order_type = OrderType.fok then
    if 0 < lo.rem then
      ({ order_id := o.id, status := OrderStatus.canceled, reason := none,
         trades := [] }, b1)
    else
      ({ order_id := o.id, status := OrderStatus.filled, reason := none,
         trades := lo.trades }, b1)
  else if 0 < lo.rem ∧ o.order_type = OrderType.limit then
    let ro : Order := { o with remaining := lo.rem }
    let b2 : OrderBook :=
      (b1.set_same o.side
          (ensure_level_add o.side (o.price.getD 0) ro (b1.same_book o.side))).with_orders
        (upsertOrd orders1 o.id ro)
    ({ order_id := o.id,
       status := if lo.trades.isEmpty then OrderStatus.resting
         else OrderStatus.partially_filled,
       reason := none, trades := lo.trades }, b2)
  else if 0 < lo.rem then
    ({ order_id := o.id,
       status := if lo.trades.isEmpty then OrderStatus.canceled
         else OrderStatus.partially_filled,
       reason := none, trades := lo.trades }, b1)
  else
    ({ order_id := o.id, status := OrderStatus.filled, reason := none,
       trades := lo.trades }, b1)

/-- submit_order (core/orderbook.py lines 109-286).  A fok order is first
pre-checked: with an empty opposite book, or with less acceptable
liquidity than order.quantity, it is canceled with reason fok_not_fillable
and zero trades, leaving the book untouched; the outcome is returned in
the result envelope.  (The is_market branch of the pre-check is retained
from the source although a fok order is never of market type.  A routed
limit/ioc/fok order always carries a price, so the getD fallback is
unreachable.) -/
def OrderBook.submit_order (b : OrderBook) (o : Order) :
    SubmitResult × OrderBook :=
  if o.order_type = OrderType.fok then
    let opp := b.opposite_book o.side
    if opp.isEmpty then
      ({ order_id := o.id, status := OrderStatus.canceled,
         reason := some "fok_not_fillable", trades := [] }, b)
    else
      let avail :=
        if o.order_type = OrderType.market then sum_book_total opp
        else fok_acceptable_total o.side (o.price.getD 0) opp
      if avail < o.quantity then
        ({ order_id := o.id, status := OrderStatus.canceled,
           reason := some "fok_not_fillable", trades := [] }, b)
      else submit_core b o
  else submit_core b o

/-! ## Cancel and modify (routes/orders.py) -/

/-- Remove the first order with this id from a level queue
(queue.remove on the object found by id scan). -/
def eraseById : List Order → String → List Order
  | [], _ => []
  | q :: rest, oid => if q.id = oid then rest else q :: eraseById rest oid

/-- The shared removal block of cancel_order and modify_order
(routes/orders.py lines 75-85 and 124-133): look up the level at the
order's price, scan its queue for the id, subtract that order's remaining
from the level total and remove it, then delete the price if the level
emptied.  A resting order always carries a price; container.get(None)
finds no level. -/
def remove_from_level (cont : List (ℚ × PriceLevel)) (oprice : Option ℚ)
    (oid : String) : List (ℚ × PriceLevel) :=
  match oprice with
  | none => cont
  | some p =>
    match findLevel cont p with
    | none => cont
    | some lvl =>
      match lvl.queue.find? (fun q => q.id = oid) with
      | none => remove_price_if_empty cont p
      | some m =>
        remove_price_if_empty
          (updateLevel cont p
            (fun _ =>
              { queue := eraseById lvl.queue oid, total := lvl.total - m.remaining }))
          p

/-- cancel_order for one book (routes/orders.py lines 68-93): none when the
id is not in this book's index (the route then moves to the next book and
finally raises 404); otherwise remove the order from its level, delete
the price if emptied, and drop the id from the index. -/
def cancel_in_book (b : OrderBook) (oid : String) : Option OrderBook :=
  match lookupOrd b.orders oid with
  | none => none
  | some ord =>
    let cont2 := remove_from_level (b.same_book ord.side) ord.price oid
    some ((b.set_same ord.side cont2).with_orders (eraseOrd b.orders oid))

/-- The DELETE /order/{id} route over the book registry: first book whose
index holds the id is mutated; none models the 404 (no state change). -/
def cancel_route : List OrderBook → String → Option (List OrderBook)
  | [], _ => none
  | b :: rest, oid =>
    match cancel_in_book b oid with
    | some b2 => some (b2 :: rest)
    | none => (cancel_route rest oid).map (fun l => b :: l)

/-- modify_order for one book (routes/orders.py lines 118-149): remove the
resting order from its level, overwrite quantity AND remaining when a
quantity is supplied, overwrite price when a price is supplied, then
reinsert at the (possibly new) price as a fresh resting order at the queue
tail and re-register in the index.  No matching is attempted.  A resting
order always carries a price, so the reinsertion price exists; the model
returns none on the unreachable priceless case (the source would fail
inserting a None key). -/
def modify_in_book (b : OrderBook) (oid : String)
    (newQty newPrice : Option ℚ) : Option OrderBook :=
  match lookupOrd b.orders oid with
  | none => none
  | some ord =>
    let cont2 := remove_from_level (b.same_book ord.side) ord.price oid
    let ord1 :=
      match newQty with
      | some q => { ord with quantity := q, remaining := q }
      | none => ord
    let ord2 :=
      match newPrice with
      | some p => { ord1 with price := some p }
      | none => ord1
    match ord2.price with
    | none => none
    | some p2 =>
      some
        ((b.set_same ord.side (ensure_level_add ord.side p2 ord2 cont2)).with_orders
          (upsertOrd b.orders oid ord2))

/-! ## The stop-order trigger scan (core/storage.py) -/

/-- Stop-registry lookup: symbol to pending stop list (first match). -/
def regLookup : List (String × List Order) → String → Option (List Order)
  | [], _ => none
  | kv :: rest, k => if kv.1 = k then some kv.2 else regLookup rest k

/-- Stop-registry write-back for a symbol (first match). -/
def regUpdate : List (String × List Order) → String → List Order →
    List (String × List Order)
  | [], _, _ => []
  | kv :: rest, k, v => if kv.1 = k then (k, v) :: rest else kv :: regUpdate rest k v

/-- The trigger condition (core/storage.py lines 37-40): a buy stop fires
when trade_price >= trigger_price, a sell stop when trade_price <=
trigger_price.  A stop order always carries a trigger price (route
validation); the source would raise comparing with None. -/
def stop_triggered (trade_price : ℚ) (o : Order) : Bool :=
  match o.price with
  | some trigger =>
    (o.side == Side.buy && decide (trigger ≤ trade_price)) ||
      (o.side == Side.sell && decide (trade_price ≤ trigger))
  | none => false

/-- The stop scan of on_trade_callback (core/storage.py lines 32-47): for
the traded symbol, collect every pending stop whose condition holds,
remove each collected stop from the registry list (list.remove removes
the first equal element), rewrite its type to market and hand it back for
resubmission as an independent submission (asyncio.create_task in the
source).  Registries of other symbols are untouched. -/
def on_trade_stops (reg : List (String × List Order)) (sym : String)
    (trade_price : ℚ) : List (String × List Order) × List Order :=
  match regLookup reg sym with
  | none => (reg, [])
  | some lst =>
    let triggered := lst.filter (stop_triggered trade_price)
    let lst2 := triggered.foldl (fun acc o => acc.erase o) lst
    (regUpdate reg sym lst2,
      triggered.map (fun o => { o with order_type := OrderType.market }))

/-! ## Fixed-precision decimal arithmetic (core/order.py lines 8-14)

The source sets getcontext().prec = 18 with rounding ROUND_DOWN and builds
every number through D.  A Decimal value is a sign, an integer coefficient
and an exponent; multiplication forms the exact product and, when the
coefficient exceeds 18 digits, truncates it toward zero.  Dec models the
value as coefficient times a power of ten. -/

/-- A decimal number: integer coefficient times ten to an integer
exponent. -/
structure Dec where
  c : ℤ
  e : ℤ
deriving DecidableEq, Repr

/-- The exact rational value of a decimal. -/
def Dec.val (d : Dec) : ℚ := (d.c : ℚ) * (10 : ℚ) ^ d.e

/-- Number of base-ten digits of a coefficient (0 for 0). -/
def digits10 (n : ℕ) : ℕ := (Nat.digits 10 n).length

/-- Integer division rounding toward zero, the coefficient truncation of
ROUND_DOWN. -/
def truncTowardZero (m : ℤ) (n : ℕ) : ℤ := m.sign * ((m.natAbs / n : ℕ) : ℤ)

/-- Decimal multiplication at precision 18 with ROUND_DOWN: the exact
coefficient product, truncated toward zero to 18 significant digits when
it is longer. -/
def decMul (a b : Dec) : Dec :=
  let m := a.c * b.c
  let d := digits10 m.natAbs
  if d ≤ 18 then { c := m, e := a.e + b.e }
  else { c := truncTowardZero m (10 ^ (d - 18)), e := a.e + b.e + ((d - 18 : ℕ) : ℤ) }

/-- D("-0.0002"): coefficient -2, exponent -4. -/
def MAKER_FEE_DEC : Dec := { c := -2, e := -4 }

/-- D("0.0010"): coefficient 10, exponent -4 (Decimal keeps the trailing
zero). -/
def TAKER_FEE_DEC : Dec := { c := 10, e := -4 }

/-- The three decimal computations of make_trade (core/orderbook.py lines
126-128) at the Decimal level: trade_value = price*qty, then each fee as
trade_value times its rate. -/
def make_trade_fees (price qty : Dec) : Dec × Dec × Dec :=
  let tv := decMul price qty
  (tv, decMul tv MAKER_FEE_DEC, decMul tv TAKER_FEE_DEC)

/-! ## Reachable book states

POST /orders (routes/orders.py lines 13-64) validates quantity > 0 and
price > 0 when present, requires a price for limit/ioc/fok, diverts
stoploss orders to the stop registry, and submits a freshly created order
(remaining = quantity).  A stop later triggered is resubmitted with its
type rewritten to market and its trigger price still set, so a market
order reaching the book may carry a price. -/

/-- An order as the routes can hand it to OrderBook.submit_order. -/
def ValidOrder (o : Order) : Prop :=
  o.order_type ≠ OrderType.stoploss ∧ 0 < o.quantity ∧
    o.remaining = o.quantity ∧ (∀ p, o.price = some p → 0 < p) ∧
    (o.order_type ≠ OrderType.market → o.price ≠ none)

/-- Book states reachable through any sequence of submits, cancels and
modifies starting from a fresh book. -/
inductive Reached : OrderBook → Prop where
  | init (sym : String) : Reached (empty_book sym)
  | submit (b : OrderBook) (o : Order) :
      Reached b → ValidOrder o → Reached (b.submit_order o).2
  | cancel (b : OrderBook) (oid : String) (b2 : OrderBook) :
      Reached b → cancel_in_book b oid = some b2 → Reached b2
  | modify (b : OrderBook) (oid : String) (q p : Option ℚ) (b2 : OrderBook) :
      Reached b → modify_in_book b oid q p = some b2 → Reached b2

/-- Book states reachable through submits and cancels only (no modify). -/
inductive ReachedSC : OrderBook → Prop where
  | init (sym : String) : ReachedSC (empty_book sym)
  | submit (b : OrderBook) (o : Order) :
      ReachedSC b → ValidOrder o → ReachedSC (b.submit_order o).2
  | cancel (b : OrderBook) (oid : String) (b2 : OrderBook) :
      ReachedSC b → cancel_in_book b oid = some b2 → ReachedSC b2

/-! ## Observations and specification predicates -/

/-- Sum of remaining over a level queue. -/
def queue_sum (q : List Order) : ℚ := (q.map Order.remaining).sum

/-- The level invariant over one side: no empty level is reachable from
the map, and every cached total is the sum of remaining over the queue. -/
def levels_ok (lst : List (ℚ × PriceLevel)) : Prop :=
  ∀ e ∈ lst, e.2.queue ≠ [] ∧ e.2.total = queue_sum e.2.queue

/-- The level invariant over a whole book. -/
def book_levels_ok (b : OrderBook) : Prop :=
  levels_ok b.asks ∧ levels_ok b.bids

/-- Best (largest) bid price: bids are kept descending, so the head
(the source's peekitem(-1)). -/
def best_bid (b : OrderBook) : Option ℚ := b.bids.head?.map (fun e => e.1)

/-- Best (smallest) ask price: asks are kept ascending, so the head
(the source's peekitem(0)). -/
def best_ask (b : OrderBook) : Option ℚ := b.asks.head?.map (fun e => e.1)

/-- Price keys of a side. -/
def keysOf (lst : List (ℚ × PriceLevel)) : List ℚ := lst.map Prod.fst

/-- Both sides strictly sorted, best price first. -/
def book_sorted (b : OrderBook) : Prop :=
  (keysOf b.asks).Pairwise (· < ·) ∧ (keysOf b.bids).Pairwise (· > ·)

/-- The book is not crossed: best bid strictly below best ask whenever
both exist. -/
def uncrossed (b : OrderBook) : Prop :=
  ∀ pb pa, best_bid b = some pb → best_ask b = some pa → pb < pa

/-- Sum of trade quantities. -/
def sum_qty (ts : List Trade) : ℚ := (ts.map Trade.quantity).sum

/-- Per-trade specification, threading the incoming order's remaining:
each emitted trade carries the incoming side as aggressor, the incoming
id as taker, and quantity min(incoming remaining at that point, the
maker's remaining), at the maker's own price with the level key as
fallback, the maker being a resting order of the opposite book before the
submit. -/
def trades_spec (sd : Side) (takerId : String)
    (opp : List (ℚ × PriceLevel)) : ℚ → List Trade → Prop
  | _, [] => True
  | rem, t :: ts =>
    (t.aggressor_side = sd ∧ t.taker_order_id = takerId ∧
      ∃ lp lvl m, (lp, lvl) ∈ opp ∧ m ∈ lvl.queue ∧
        m.id = t.maker_order_id ∧ t.price = m.price.getD lp ∧
        t.quantity = min rem m.remaining) ∧
    trades_spec sd takerId opp (rem - t.quantity) ts

/-- Acceptable-price test of the FOK pre-check, as the spec words it:
for a buy, ask levels with price at most order.price; for a sell, bid
levels with price at least order.price. -/
def fok_price_ok (s : Side) (lp p : ℚ) : Bool :=
  match s with
  | Side.buy => decide (p ≤ lp)
  | Side.sell => decide (lp ≤ p)

/-- The summed available quantity at acceptable prices, spec-style: the
sum of level totals over the acceptable levels of the opposite book. -/
def acceptable_depth (s : Side) (lp : ℚ) (lst : List (ℚ × PriceLevel)) : ℚ :=
  ((lst.filter (fun e => fok_price_ok s lp e.1)).map (fun e => e.2.total)).sum

/-! ## Helper lemmas: fee fields of emitted trades -/

/-- The fee relation every trade built by make_trade satisfies. -/
def fee_ok (t : Trade) : Prop :=
  t.trade_value = t.price * t.quantity ∧
    t.maker_fee = t.trade_value * MAKER_FEE_RATE ∧
    t.taker_fee = t.trade_value * TAKER_FEE_RATE

lemma fee_ok_make_trade (sym : String) (seq : ℕ) (price qty : ℚ)
    (mk tk : String) (aggr : Side) :
    fee_ok (make_trade sym seq price qty mk tk aggr) :=
  ⟨rfl, rfl, rfl⟩

lemma fee_ok_match_level (aggr : Side) (tid sym : String) (bp : ℚ) :
    ∀ (q : List Order) (rem tot : ℚ) (seq : ℕ),
      ∀ t ∈ (match_level aggr tid sym bp rem q tot seq).trades, fee_ok t := by
  intro q
  induction q with
  | nil => intro rem tot seq t ht; simp [match_level] at ht
  | cons resting rest ih =>
    intro rem tot seq t ht
    simp only [match_level] at ht
    by_cases h0 : 0 < rem
    · rw [if_pos h0] at ht
      by_cases hr : resting.remaining - min rem resting.remaining = 0
      · rw [if_pos hr] at ht
        simp only [List.mem_cons] at ht
        rcases ht with h | h
        · subst h; exact fee_ok_make_trade _ _ _ _ _ _ _
        · exact ih _ _ _ t h
      · rw [if_neg hr] at ht
        simp only [List.mem_singleton] at ht
        subst ht; exact fee_ok_make_trade _ _ _ _ _ _ _
    · rw [if_neg h0] at ht
      simp at ht

lemma fee_ok_match_loop (aggr : Side) (isMkt : Bool) (oprice : Option ℚ)
    (tid sym : String) :
    ∀ (opp : List (ℚ × PriceLevel)) (rem : ℚ) (seq : ℕ),
      ∀ t ∈ (match_loop aggr isMkt oprice tid sym rem opp seq).trades, fee_ok t := by
  intro opp
  induction opp with
  | nil => intro rem seq t ht; simp [match_loop] at ht
  | cons e rest ih =>
    intro rem seq t ht
    obtain ⟨bp, lvl⟩ := e
    simp only [match_loop] at ht
    by_cases h0 : 0 < rem
    · rw [if_pos h0] at ht
      by_cases ha : price_acceptable aggr isMkt oprice bp = true
      · rw [if_pos ha] at ht
        by_cases he :
            (match_level aggr tid sym bp rem lvl.queue lvl.total seq).queue.isEmpty = true
        · rw [if_pos he] at ht
          simp only [List.mem_append] at ht
          rcases ht with h | h
          · exact fee_ok_match_level _ _ _ _ _ _ _ _ t h
          · exact ih _ _ t h
        · rw [if_neg he] at ht
          exact fee_ok_match_level _ _ _ _ _ _ _ _ t ht
      · rw [if_neg ha] at ht
        simp at ht
    · rw [if_neg h0] at ht
      simp at ht

lemma submit_core_trades (b : OrderBook) (o : Order) :
    (submit_core b o).1.trades = (submit_match b o).trades ∨
      (submit_core b o).1.trades = [] := by
  unfold submit_core
  by_cases h1 : o.order_type = OrderType.ioc
  · rw [if_pos h1]
    by_cases h2 : 0 < (submit_match b o).rem
    · rw [if_pos h2]; left; rfl
    · rw [if_neg h2]; left; rfl
  · rw [if_neg h1]
    by_cases h2 : o.order_type = OrderType.fok
    · rw [if_pos h2]
      by_cases h3 : 0 < (submit_match b o).rem
      · rw [if_pos h3]; right; rfl
      · rw [if_neg h3]; left; rfl
    · rw [if_neg h2]
      by_cases h3 : 0 < (submit_match b o).rem ∧ o.order_type = OrderType.limit
      · rw [if_pos h3]; left; rfl
      · rw [if_neg h3]
        by_cases h4 : 0 < (submit_match b o).rem
        · rw [if_pos h4]; left; rfl
        · rw [if_neg h4]; left; rfl

lemma fee_ok_submit_core (b : OrderBook) (o : Order) :
    ∀ t ∈ (submit_core b o).1.trades, fee_ok t := by
  intro t ht
  rcases submit_core_trades b o with h | h
  · rw [h] at ht
    exact fee_ok_match_loop _ _ _ _ _ _ _ _ t ht
  · rw [h] at ht; simp at ht

lemma fee_ok_submit (b : OrderBook) (o : Order) :
    ∀ t ∈ (b.submit_order o).1.trades, fee_ok t := by
  intro t ht
  unfold OrderBook.submit_order at ht
  by_cases hf : o.order_type = OrderType.fok
  · rw [if_pos hf] at ht
    by_cases he : (b.opposite_book o.side).isEmpty = true
    · rw [if_pos he] at ht; simp at ht
    · rw [if_neg he] at ht
      by_cases hq :
          (if o.order_type = OrderType.market then sum_book_total (b.opposite_book o.side)
            else fok_acceptable_total o.side (o.price.getD 0) (b.opposite_book o.side)) <
            o.quantity
      · rw [if_pos hq] at ht; simp at ht
      · rw [if_neg hq] at ht
        exact fee_ok_submit_core b o t ht
  · rw [if_neg hf] at ht
    exact fee_ok_submit_core b o t ht

/-! ## Helper lemmas: fixed-precision decimal multiplication -/

lemma val_mul_val (a b : Dec) :
    a.val * b.val = ((a.c * b.c : ℤ) : ℚ) * (10 : ℚ) ^ (a.e + b.e) := by
  unfold Dec.val
  rw [zpow_add₀ (by norm_num : (10 : ℚ) ≠ 0)]
  push_cast
  ring

lemma decMul_exact (a b : Dec) (h : digits10 (a.c * b.c).natAbs ≤ 18) :
    (decMul a b).val = a.val * b.val := by
  rw [val_mul_val]
  unfold decMul
  simp only [if_pos h]
  rfl

lemma natAbs_truncTowardZero (m : ℤ) (n : ℕ) :
    (truncTowardZero m n).natAbs = m.natAbs / n := by
  unfold truncTowardZero
  rcases Int.lt_trichotomy m 0 with h | h | h
  · rw [Int.sign_eq_neg_one_of_neg h, neg_one_mul, Int.natAbs_neg, Int.natAbs_ofNat]
  · subst h
    simp
  · rw [Int.sign_eq_one_of_pos h, one_mul, Int.natAbs_ofNat]

lemma decMul_toward_zero (a b : Dec) :
    |(decMul a b).val| ≤ |a.val * b.val| := by
  by_cases h : digits10 (a.c * b.c).natAbs ≤ 18
  · rw [decMul_exact a b h]
  · rw [val_mul_val]
    unfold decMul
    rw [if_neg h]
    unfold Dec.val
    have h10 : (0 : ℚ) < 10 := by norm_num
    have hz : ∀ n : ℤ, (0 : ℚ) < (10 : ℚ) ^ n := fun n => zpow_pos h10 n
    set m := a.c * b.c with hm
    set j := digits10 m.natAbs - 18 with hj
    rw [abs_mul, abs_mul, abs_of_pos (hz _), abs_of_pos (hz _),
      zpow_add₀ (ne_of_gt h10), zpow_natCast]
    dsimp only
    have int_key : |truncTowardZero m (10 ^ j)| * (10 : ℤ) ^ j ≤ |m| := by
      rw [Int.abs_eq_natAbs, Int.abs_eq_natAbs, natAbs_truncTowardZero]
      exact_mod_cast Nat.div_mul_le_self m.natAbs (10 ^ j)
    have qkey :
        (|truncTowardZero m (10 ^ j)| : ℚ) * (10 : ℚ) ^ j ≤ (|m| : ℚ) := by
      exact_mod_cast int_key
    have goal_eq :
        |((truncTowardZero m (10 ^ j) : ℤ) : ℚ)| *
            ((10 : ℚ) ^ (a.e + b.e) * (10 : ℚ) ^ j) =
          |((truncTowardZero m (10 ^ j) : ℤ) : ℚ)| * (10 : ℚ) ^ j *
            (10 : ℚ) ^ (a.e + b.e) := by
      ring
    rw [goal_eq]
    exact mul_le_mul_of_nonneg_right qkey (hz (a.e + b.e)).le

/-! ## Helper lemmas: the stop-scan fold of list.remove calls -/

lemma foldl_erase_cons (x : Order) :
    ∀ (ts l : List Order), (∀ t ∈ ts, t ≠ x) →
      ts.foldl (fun acc o => acc.erase o) (x :: l) =
        x :: ts.foldl (fun acc o => acc.erase o) l := by
  intro ts
  induction ts with
  | nil => intro l _; rfl
  | cons t ts ih =>
    intro l h
    have hne : x ≠ t := (h t (List.mem_cons_self _ _)).symm
    simp only [List.foldl_cons]
    rw [List.erase_cons_tail]
    · exact ih _ (fun u hu => h u (List.mem_cons_of_mem _ hu))
    · simp [hne]

lemma foldl_erase_filter (p : Order → Bool) :
    ∀ l : List Order,
      (l.filter p).foldl (fun acc o => acc.erase o) l =
        l.filter (fun o => !p o) := by
  intro l
  induction l with
  | nil => rfl
  | cons x xs ih =>
    by_cases hx : p x = true
    · rw [List.filter_cons_of_pos hx, List.filter_cons_of_neg (by simp [hx])]
      simp only [List.foldl_cons, List.erase_cons_head]
      exact ih
    · have hxf : p x = false := by simpa using hx
      rw [List.filter_cons_of_neg (by simp [hxf]),
        List.filter_cons_of_pos (by simp [hxf])]
      rw [foldl_erase_cons x (xs.filter p) xs ?hne]
      · rw [ih]
      case hne =>
        intro t ht heq
        have hpt : p t = true := List.of_mem_filter ht
        rw [heq, hxf] at hpt
        exact Bool.false_ne_true hpt

lemma regLookup_regUpdate_self (sym : String) (v : List Order) :
    ∀ reg l, regLookup reg sym = some l →
      regLookup (regUpdate reg sym v) sym = some v := by
  intro reg
  induction reg with
  | nil => intro l h; simp [regLookup] at h
  | cons kv rest ih =>
    intro l h
    by_cases hk : kv.1 = sym
    · simp [regUpdate, if_pos hk, regLookup]
    · simp only [regLookup, if_neg hk] at h
      simp only [regUpdate, if_neg hk, regLookup, if_neg hk]
      exact ih l h

lemma regLookup_regUpdate_ne (sym s : String) (v : List Order)
    (hs : s ≠ sym) :
    ∀ reg, regLookup (regUpdate reg sym v) s = regLookup reg s := by
  intro reg
  induction reg with
  | nil => rfl
  | cons kv rest ih =>
    by_cases hk : kv.1 = sym
    · have hks : ¬ (sym = s) := fun h => hs h.symm
      simp only [regUpdate, if_pos hk, regLookup, if_neg hks, hk]
    · simp only [regUpdate, if_neg hk, regLookup]
      by_cases hk2 : kv.1 = s
      · simp only [if_pos hk2]
      · simp only [if_neg hk2]
        exact ih

/-! ## Helper lemmas: the FOK pre-check sum -/

/-- Sort order of the opposite book as iterated by the pre-check: asks
ascending for a buy, bids descending (best-first) for a sell. -/
def opp_sorted (s : Side) (lst : List (ℚ × PriceLevel)) : Prop :=
  match s with
  | Side.buy => (keysOf lst).Pairwise (· < ·)
  | Side.sell => (keysOf lst).Pairwise (· > ·)

lemma fok_total_eq_depth (s : Side) (lp : ℚ) :
    ∀ lst : List (ℚ × PriceLevel), opp_sorted s lst →
      fok_acceptable_total s lp lst = acceptable_depth s lp lst := by
  intro lst
  induction lst with
  | nil => intro _; cases s <;> simp [fok_acceptable_total, acceptable_depth]
  | cons e rest ih =>
    intro hs
    cases s with
    | buy =>
      have hpw := (List.pairwise_cons.mp hs)
      by_cases hcmp : lp < e.1
      · have hnil : (e :: rest).filter (fun x => fok_price_ok Side.buy lp x.1) = [] := by
          rw [List.filter_eq_nil_iff]
          intro x hx
          rcases List.mem_cons.mp hx with hx | hx
          · subst hx
            simp [fok_price_ok, not_le.mpr hcmp]
          · have hgt : e.1 < x.1 := hpw.1 x.1 (List.mem_map_of_mem Prod.fst hx)
            simp [fok_price_ok, not_le.mpr (lt_trans hcmp hgt)]
        simp only [fok_acceptable_total, if_pos hcmp, acceptable_depth, hnil,
          List.map_nil, List.sum_nil]
      · have hok : fok_price_ok Side.buy lp e.1 = true := by
          simp [fok_price_ok, not_lt.mp hcmp]
        simp only [fok_acceptable_total, if_neg hcmp]
        rw [ih hpw.2]
        simp [acceptable_depth, List.filter_cons, hok]
    | sell =>
      have hpw := (List.pairwise_cons.mp hs)
      by_cases hcmp : e.1 < lp
      · have hnil : (e :: rest).filter (fun x => fok_price_ok Side.sell lp x.1) = [] := by
          rw [List.filter_eq_nil_iff]
          intro x hx
          rcases List.mem_cons.mp hx with hx | hx
          · subst hx
            simp [fok_price_ok, not_le.mpr hcmp]
          · have hgt : x.1 < e.1 := hpw.1 x.1 (List.mem_map_of_mem Prod.fst hx)
            simp [fok_price_ok, not_le.mpr (lt_trans hgt hcmp)]
        simp only [fok_acceptable_total, if_pos hcmp, acceptable_depth, hnil,
          List.map_nil, List.sum_nil]
      · have hok : fok_price_ok Side.sell lp e.1 = true := by
          simp [fok_price_ok, not_lt.mp hcmp]
        simp only [fok_acceptable_total, if_neg hcmp]
        rw [ih hpw.2]
        simp [acceptable_depth, List.filter_cons, hok]

/-! ## Claim C7 -/

/-- C7: for each trade handed to the stop pipeline, exactly those pending
stops registered for the traded symbol whose trigger condition holds
(buy: trade_price at least the trigger, sell: trade_price at most the
trigger) are removed from the registry and handed back for resubmission
with their type rewritten to market; non-triggered stops and the
registries of other symbols are unchanged. -/
theorem c7_stop_trigger_pipeline (reg : List (String × List Order))
    (sym : String) (tp : ℚ) :
    regLookup (on_trade_stops reg sym tp).1 sym =
      (regLookup reg sym).map
        (fun l => l.filter (fun o => !stop_triggered tp o)) ∧
    (∀ s, s ≠ sym →
      regLookup (on_trade_stops reg sym tp).1 s = regLookup reg s) ∧
    (on_trade_stops reg sym tp).2 =
      (((regLookup reg sym).getD []).filter (stop_triggered tp)).map
        (fun o => { o with order_type := OrderType.market }) := by
  cases h : regLookup reg sym with
  | none =>
    refine ⟨?_, ?_, ?_⟩
    · simp [on_trade_stops, h]
    · intro s _
      simp [on_trade_stops, h]
    · simp [on_trade_stops, h]
  | some lst =>
    have hfold := foldl_erase_filter (stop_triggered tp) lst
    refine ⟨?_, ?_, ?_⟩
    · simp only [on_trade_stops, h]
      rw [regLookup_regUpdate_self sym _ reg lst h, hfold]
      simp
    · intro s hs
      simp only [on_trade_stops, h]
      exact regLookup_regUpdate_ne sym s _ hs reg
    · simp [on_trade_stops, h]

/-- Witness for C7 at a concrete registry: a trade at 100 on symbol S
removes and resubmits the buy stop triggered at 95, keeps the buy stop
waiting at 120, and leaves symbol T untouched. -/
theorem c7_stop_trigger_pipeline_witness :
    regLookup
      (on_trade_stops
        [("S", [⟨"a", "S", Side.buy, OrderType.stoploss, 1, some 95, 1⟩,
                ⟨"b", "S", Side.buy, OrderType.stoploss, 1, some 120, 1⟩]),
         ("T", [⟨"c", "T", Side.sell, OrderType.stoploss, 1, some 100, 1⟩])]
        "S" 100).1 "T" =
      regLookup
        [("S", [⟨"a", "S", Side.buy, OrderType.stoploss, 1, some 95, 1⟩,
                ⟨"b", "S", Side.buy, OrderType.stoploss, 1, some 120, 1⟩]),
         ("T", [⟨"c", "T", Side.sell, OrderType.stoploss, 1, some 100, 1⟩])]
        "T" :=
  (c7_stop_trigger_pipeline _ "S" 100).2.1 "T" (by decide)

/-! ## Claim C8 -/

/-- C8: for every trade emitted by a submit, trade_value = price ×
quantity, maker_fee = trade_value × −0.0002 and taker_fee = trade_value ×
0.0010; at the fixed-precision decimal level (18 significant digits,
rounding toward zero) the three products of make_trade are exactly decMul
of their operands, decMul is exact whenever the coefficient product fits
in 18 digits, and otherwise truncates toward zero (never increasing the
magnitude).  Everything is integer/rational arithmetic: no floating
point. -/
theorem c8_fee_accounting (p q : Dec) :
    (make_trade_fees p q).1 = decMul p q ∧
    (make_trade_fees p q).2.1 = decMul (decMul p q) MAKER_FEE_DEC ∧
    (make_trade_fees p q).2.2 = decMul (decMul p q) TAKER_FEE_DEC ∧
    (∀ a b : Dec, digits10 (a.c * b.c).natAbs ≤ 18 →
      (decMul a b).val = a.val * b.val) ∧
    (∀ a b : Dec, |(decMul a b).val| ≤ |a.val * b.val|) ∧
    (∀ (bk : OrderBook) (o : Order), ∀ t ∈ (bk.submit_order o).1.trades,
      t.trade_value = t.price * t.quantity ∧
      t.maker_fee = t.trade_value * MAKER_FEE_RATE ∧
      t.taker_fee = t.trade_value * TAKER_FEE_RATE) :=
  ⟨rfl, rfl, rfl, decMul_exact, decMul_toward_zero,
    fun bk o t ht => fee_ok_submit bk o t ht⟩

/-- Witness for C8: 0.3 × 5 is within 18 digits, so decMul is the exact
product there. -/
theorem c8_fee_accounting_witness :
    (decMul ⟨3, -1⟩ ⟨5, 0⟩).val = (Dec.mk 3 (-1)).val * (Dec.mk 5 0).val :=
  (c8_fee_accounting ⟨1, 0⟩ ⟨1, 0⟩).2.2.2.1 ⟨3, -1⟩ ⟨5, 0⟩
    (by norm_num [digits10, Nat.digits_def'])

/-! ## Helper lemmas: id index and price-level lookups -/

lemma lookupOrd_of_any_false (k : String) :
    ∀ l : List (String × Order), l.any (fun kv => kv.1 = k) = false →
      lookupOrd l k = none := by
  intro l
  induction l with
  | nil => intro _; rfl
  | cons kv rest ih =>
    intro h
    simp only [List.any_cons, Bool.or_eq_false_iff] at h
    have hk : ¬ (kv.1 = k) := by simpa using h.1
    simp only [lookupOrd, if_neg hk]
    exact ih (by simpa using h.2)

lemma lookupOrd_append_self (k : String) (v : Order) :
    ∀ l : List (String × Order), lookupOrd l k = none →
      lookupOrd (l ++ [(k, v)]) k = some v := by
  intro l
  induction l with
  | nil => intro _; simp [lookupOrd]
  | cons kv rest ih =>
    intro h
    by_cases hk : kv.1 = k
    · simp only [lookupOrd, if_pos hk] at h
      cases h
    · simp only [lookupOrd, if_neg hk] at h
      simp only [List.cons_append, lookupOrd, if_neg hk]
      exact ih h

lemma lookupOrd_map_set (k : String) (v : Order) :
    ∀ l : List (String × Order), l.any (fun kv => kv.1 = k) = true →
      lookupOrd (l.map (fun kv => if kv.1 = k then (kv.1, v) else kv)) k =
        some v := by
  intro l
  induction l with
  | nil => intro h; simp at h
  | cons kv rest ih =>
    intro h
    by_cases hk : kv.1 = k
    · simp [List.map_cons, if_pos hk, lookupOrd, hk]
    · simp only [List.any_cons] at h
      have h2 : rest.any (fun kv => kv.1 = k) = true := by
        simpa [hk] using h
      simp only [List.map_cons, if_neg hk, lookupOrd, if_neg hk]
      exact ih h2

lemma lookupOrd_upsert_self (l : List (String × Order)) (k : String) (v : Order) :
    lookupOrd (upsertOrd l k v) k = some v := by
  unfold upsertOrd
  by_cases h : l.any (fun kv => kv.1 = k) = true
  · rw [if_pos h]
    exact lookupOrd_map_set k v l h
  · have hf : l.any (fun kv => kv.1 = k) = false := by
      cases hb : l.any (fun kv => kv.1 = k)
      · rfl
      · exact absurd hb h
    rw [if_neg h]
    exact lookupOrd_append_self k v l (lookupOrd_of_any_false k l hf)

lemma findLevel_updateLevel (p : ℚ) (f : PriceLevel → PriceLevel) :
    ∀ (lst : List (ℚ × PriceLevel)) (l0 : PriceLevel),
      findLevel lst p = some l0 →
      findLevel (updateLevel lst p f) p = some (f l0) := by
  intro lst
  induction lst with
  | nil => intro l0 h; cases h
  | cons e rest ih =>
    intro l0 h
    by_cases hk : e.1 = p
    · simp only [findLevel, if_pos hk] at h
      cases h
      simp [updateLevel, if_pos hk, findLevel]
    · simp only [findLevel, if_neg hk] at h
      simp only [updateLevel, if_neg hk, findLevel, if_neg hk]
      exact ih l0 h

lemma findLevel_insertLevel (s : Side) (p : ℚ) (lvl : PriceLevel) :
    ∀ lst : List (ℚ × PriceLevel), (∀ e ∈ lst, e.1 ≠ p) →
      findLevel (insertLevel s p lvl lst) p = some lvl := by
  intro lst
  induction lst with
  | nil => intro _; simp [insertLevel, findLevel]
  | cons e rest ih =>
    intro h
    simp only [insertLevel]
    by_cases hb : levelBefore s p e.1 = true
    · simp [if_pos hb, findLevel]
    · simp only [if_neg hb, findLevel,
        if_neg (h e (List.mem_cons_self _ _))]
      exact ih (fun x hx => h x (List.mem_cons_of_mem _ hx))

lemma keys_ne_of_any_false (p : ℚ) (lst : List (ℚ × PriceLevel))
    (h : lst.any (fun e => e.1 = p) = false) :
    ∀ e ∈ lst, e.1 ≠ p := by
  intro e he hep
  exact (List.any_eq_false.mp h e he) (by simp [hep])

lemma findLevel_of_any_true (p : ℚ) :
    ∀ lst : List (ℚ × PriceLevel), lst.any (fun e => e.1 = p) = true →
      ∃ l0, findLevel lst p = some l0 := by
  intro lst
  induction lst with
  | nil => intro h; simp at h
  | cons e rest ih =>
    intro h
    by_cases hk : e.1 = p
    · exact ⟨e.2, by simp [findLevel, hk]⟩
    · simp only [List.any_cons] at h
      have h2 : rest.any (fun e => e.1 = p) = true := by
        simpa [hk] using h
      obtain ⟨l0, hl0⟩ := ih h2
      exact ⟨l0, by simp [findLevel, hk, hl0]⟩

lemma findLevel_ensure_level_add (s : Side) (p : ℚ) (o : Order)
    (lst : List (ℚ × PriceLevel)) :
    ∃ q0 t0, findLevel (ensure_level_add s p o lst) p =
      some { queue := q0 ++ [o], total := t0 + o.remaining } := by
  unfold ensure_level_add
  by_cases h : lst.any (fun e => e.1 = p) = true
  · rw [if_pos h]
    obtain ⟨l0, hl0⟩ := findLevel_of_any_true p lst h
    exact ⟨l0.queue, l0.total, findLevel_updateLevel p _ lst l0 hl0⟩
  · rw [if_neg h]
    refine ⟨[], 0, ?_⟩
    have hf : lst.any (fun e => e.1 = p) = false := by
      cases hb : lst.any (fun e => e.1 = p)
      · rfl
      · exact absurd hb h
    exact findLevel_insertLevel s p _ lst (keys_ne_of_any_false p lst hf)

lemma same_book_set_same (b : OrderBook) (s : Side)
    (lst : List (ℚ × PriceLevel)) :
    (b.set_same s lst).same_book s = lst := by
  cases s <;> rfl

lemma opposite_book_set_same (b : OrderBook) (s : Side)
    (lst : List (ℚ × PriceLevel)) :
    (b.set_same s lst).opposite_book s = b.opposite_book s := by
  cases s <;> rfl

lemma same_book_set_opposite (b : OrderBook) (s : Side)
    (lst : List (ℚ × PriceLevel)) :
    (b.set_opposite s lst).same_book s = b.same_book s := by
  cases s <;> rfl

lemma opposite_book_set_opposite (b : OrderBook) (s : Side)
    (lst : List (ℚ × PriceLevel)) :
    (b.set_opposite s lst).opposite_book s = lst := by
  cases s <;> rfl

lemma trade_seq_set_same (b : OrderBook) (s : Side)
    (lst : List (ℚ × PriceLevel)) :
    (b.set_same s lst).trade_seq = b.trade_seq := by
  cases s <;> rfl

lemma same_book_with_orders (X : OrderBook) (os : List (String × Order)) (s : Side) :
    (X.with_orders os).same_book s = X.same_book s := by
  cases s <;> rfl

lemma opposite_book_with_orders (X : OrderBook) (os : List (String × Order)) (s : Side) :
    (X.with_orders os).opposite_book s = X.opposite_book s := by
  cases s <;> rfl

lemma trade_seq_with_orders (X : OrderBook) (os : List (String × Order)) :
    (X.with_orders os).trade_seq = X.trade_seq := rfl

lemma orders_with_orders (X : OrderBook) (os : List (String × Order)) :
    (X.with_orders os).orders = os := rfl

lemma same_book_with_orders_seq (X : OrderBook) (os : List (String × Order))
    (ts : ℕ) (s : Side) :
    (X.with_orders_seq os ts).same_book s = X.same_book s := by
  cases s <;> rfl

lemma opposite_book_with_orders_seq (X : OrderBook) (os : List (String × Order))
    (ts : ℕ) (s : Side) :
    (X.with_orders_seq os ts).opposite_book s = X.opposite_book s := by
  cases s <;> rfl

/-! ## Claim C2 -/

/-- C2: a FOK submit against an empty opposite book, or with summed
acceptable liquidity (ask levels priced at most order.price for a buy,
bid levels priced at least order.price for a sell) strictly below
order.quantity, returns status canceled with reason fok_not_fillable and
an empty trade list inside the result envelope, and leaves the book
completely unchanged. -/
theorem c2_fok_not_fillable (b : OrderBook) (o : Order) (lp : ℚ)
    (ho : o.order_type = OrderType.fok) (hp : o.price = some lp)
    (hs : opp_sorted o.side (b.opposite_book o.side))
    (h : b.opposite_book o.side = [] ∨
      acceptable_depth o.side lp (b.opposite_book o.side) < o.quantity) :
    b.submit_order o =
      ({ order_id := o.id, status := OrderStatus.canceled,
         reason := some "fok_not_fillable", trades := [] }, b) := by
  have hm : ¬ (o.order_type = OrderType.market) := by rw [ho]; decide
  unfold OrderBook.submit_order
  rw [if_pos ho]
  rcases h with he | hlt
  · simp [he]
  · by_cases hemp : (b.opposite_book o.side).isEmpty = true
    · simp [hemp]
    · have hfok :
          fok_acceptable_total o.side (o.price.getD 0) (b.opposite_book o.side) <
            o.quantity := by
        rw [hp]
        show fok_acceptable_total o.side lp _ < _
        rw [fok_total_eq_depth o.side lp _ hs]
        exact hlt
      simp [hemp, hm, hfok]

/-- Witness for C2, scenario 4 of the spec: one resting sell of 1 at 300,
FOK buy of 2 at 300: canceled fok_not_fillable, no trades, book
unchanged. -/
theorem c2_fok_not_fillable_witness :
    OrderBook.submit_order
      ⟨"S", [(300, ⟨[⟨"s1", "S", Side.sell, OrderType.limit, 1, some 300, 1⟩], 1⟩)],
        [], [("s1", ⟨"s1", "S", Side.sell, OrderType.limit, 1, some 300, 1⟩)], 0⟩
      ⟨"f1", "S", Side.buy, OrderType.fok, 2, some 300, 2⟩ =
      ({ order_id := "f1", status := OrderStatus.canceled,
         reason := some "fok_not_fillable", trades := [] },
        ⟨"S", [(300, ⟨[⟨"s1", "S", Side.sell, OrderType.limit, 1, some 300, 1⟩], 1⟩)],
          [], [("s1", ⟨"s1", "S", Side.sell, OrderType.limit, 1, some 300, 1⟩)], 0⟩) :=
  c2_fok_not_fillable _ _ 300 rfl rfl
    (by simp [opp_sorted, OrderBook.opposite_book, keysOf])
    (Or.inr (by norm_num [acceptable_depth, OrderBook.opposite_book,
      fok_price_ok, List.filter]))

/-! ## Helper lemmas: the per-trade specification -/

lemma match_level_rem (aggr : Side) (tid sym : String) (bp : ℚ) :
    ∀ (q : List Order) (rem tot : ℚ) (seq : ℕ),
      (match_level aggr tid sym bp rem q tot seq).rem =
        rem - sum_qty (match_level aggr tid sym bp rem q tot seq).trades := by
  intro q
  induction q with
  | nil => intro rem tot seq; simp [match_level, sum_qty]
  | cons resting rest ih =>
    intro rem tot seq
    by_cases h0 : 0 < rem
    · simp only [match_level, if_pos h0]
      by_cases hr : resting.remaining - min rem resting.remaining = 0
      · simp only [if_pos hr]
        rw [ih]
        simp [sum_qty, make_trade]
        ring
      · simp only [if_neg hr]
        simp [sum_qty, make_trade]
    · simp [match_level, if_neg h0, sum_qty]

lemma match_loop_rem (aggr : Side) (isMkt : Bool) (oprice : Option ℚ)
    (tid sym : String) :
    ∀ (opp : List (ℚ × PriceLevel)) (rem : ℚ) (seq : ℕ),
      (match_loop aggr isMkt oprice tid sym rem opp seq).rem =
        rem - sum_qty (match_loop aggr isMkt oprice tid sym rem opp seq).trades := by
  intro opp
  induction opp with
  | nil => intro rem seq; simp [match_loop, sum_qty]
  | cons e rest ih =>
    intro rem seq
    obtain ⟨bp, lvl⟩ := e
    by_cases h0 : 0 < rem
    · simp only [match_loop, if_pos h0]
      by_cases ha : price_acceptable aggr isMkt oprice bp = true
      · simp only [if_pos ha]
        by_cases he :
            (match_level aggr tid sym bp rem lvl.queue lvl.total seq).queue.isEmpty = true
        · simp only [if_pos he]
          rw [ih]
          rw [match_level_rem aggr tid sym bp lvl.queue rem lvl.total seq]
          simp [sum_qty]
          ring
        · simp only [if_neg he]
          exact match_level_rem aggr tid sym bp lvl.queue rem lvl.total seq
      · simp [if_neg ha, match_loop, sum_qty, if_pos h0]
    · simp [match_loop, if_neg h0, sum_qty]

lemma trades_spec_mono (sd : Side) (tid : String)
    (opp1 opp2 : List (ℚ × PriceLevel))
    (hsub : ∀ x ∈ opp1, x ∈ opp2) :
    ∀ (ts : List Trade) (rem : ℚ),
      trades_spec sd tid opp1 rem ts → trades_spec sd tid opp2 rem ts := by
  intro ts
  induction ts with
  | nil => intro rem _; trivial
  | cons t ts ih =>
    intro rem h
    obtain ⟨⟨h1, h2, lp, lvl, m, hmem, hq, h3, h4, h5⟩, hrest⟩ := h
    exact ⟨⟨h1, h2, lp, lvl, m, hsub _ hmem, hq, h3, h4, h5⟩, ih _ hrest⟩

lemma trades_spec_append (sd : Side) (tid : String)
    (opp : List (ℚ × PriceLevel)) :
    ∀ (ts1 ts2 : List Trade) (rem : ℚ),
      trades_spec sd tid opp rem ts1 →
      trades_spec sd tid opp (rem - sum_qty ts1) ts2 →
      trades_spec sd tid opp rem (ts1 ++ ts2) := by
  intro ts1
  induction ts1 with
  | nil =>
    intro ts2 rem _ h2
    simpa [sum_qty] using h2
  | cons t ts ih =>
    intro ts2 rem h1 h2
    obtain ⟨hh, hrest⟩ := h1
    refine ⟨hh, ?_⟩
    apply ih ts2 (rem - t.quantity) hrest
    have : rem - t.quantity - sum_qty ts = rem - sum_qty (t :: ts) := by
      simp [sum_qty]
      ring
    rw [this]
    exact h2

lemma match_level_spec (aggr : Side) (tid sym : String) (bp : ℚ)
    (opp : List (ℚ × PriceLevel)) (lvl0 : PriceLevel)
    (hmem : (bp, lvl0) ∈ opp) :
    ∀ (q : List Order) (rem tot : ℚ) (seq : ℕ),
      (∀ m ∈ q, m ∈ lvl0.queue) →
      trades_spec aggr tid opp rem
        (match_level aggr tid sym bp rem q tot seq).trades := by
  intro q
  induction q with
  | nil => intro rem tot seq _; simp only [match_level]; trivial
  | cons resting rest ih =>
    intro rem tot seq hsub
    by_cases h0 : 0 < rem
    · simp only [match_level, if_pos h0]
      by_cases hr : resting.remaining - min rem resting.remaining = 0
      · simp only [if_pos hr]
        refine ⟨⟨rfl, rfl, bp, lvl0, resting, hmem,
          hsub resting (List.mem_cons_self _ _), rfl, rfl, rfl⟩, ?_⟩
        have hq : (make_trade sym (seq + 1) (resting.price.getD bp)
            (min rem resting.remaining) resting.id tid aggr).quantity =
            min rem resting.remaining := rfl
        rw [hq]
        exact ih (rem - min rem resting.remaining) (tot - min rem resting.remaining)
          (seq + 1) (fun m hm => hsub m (List.mem_cons_of_mem _ hm))
      · simp only [if_neg hr]
        refine ⟨⟨rfl, rfl, bp, lvl0, resting, hmem,
          hsub resting (List.mem_cons_self _ _), rfl, rfl, rfl⟩, ?_⟩
        trivial
    · simp only [match_level, if_neg h0]
      trivial

lemma match_loop_spec (aggr : Side) (isMkt : Bool) (oprice : Option ℚ)
    (tid sym : String) (opp0 : List (ℚ × PriceLevel)) :
    ∀ (opp : List (ℚ × PriceLevel)), (∀ e ∈ opp, e ∈ opp0) →
      ∀ (rem : ℚ) (seq : ℕ),
        trades_spec aggr tid opp0 rem
          (match_loop aggr isMkt oprice tid sym rem opp seq).trades := by
  intro opp
  induction opp with
  | nil => intro _ rem seq; simp only [match_loop]; trivial
  | cons e rest ih =>
    intro hsub rem seq
    obtain ⟨bp, lvl⟩ := e
    by_cases h0 : 0 < rem
    · simp only [match_loop, if_pos h0]
      by_cases ha : price_acceptable aggr isMkt oprice bp = true
      · simp only [if_pos ha]
        have hlvl := match_level_spec aggr tid sym bp opp0 lvl
          (hsub _ (List.mem_cons_self _ _)) lvl.queue rem lvl.total seq
          (fun m hm => hm)
        by_cases he :
            (match_level aggr tid sym bp rem lvl.queue lvl.total seq).queue.isEmpty = true
        · simp only [if_pos he]
          apply trades_spec_append aggr tid opp0 _ _ rem hlvl
          rw [← match_level_rem aggr tid sym bp lvl.queue rem lvl.total seq]
          exact ih (fun x hx => hsub x (List.mem_cons_of_mem _ hx)) _ _
        · simp only [if_neg he]
          exact hlvl
      · simp only [if_neg ha]
        trivial
    · simp only [match_loop, if_neg h0]
      trivial

/-! ## Claim C1 -/

/-- C1: every trade emitted during a submit has the incoming order's side
as aggressor_side and the incoming id as taker; its maker is a resting
order of the opposite book before the submit, the execution price is that
maker's own price (falling back to its level's price key), and the trade
quantity is min of the incoming remaining at that point (threaded through
the trade list) and the maker's remaining. -/
theorem c1_trade_fields (b : OrderBook) (o : Order) :
    trades_spec o.side o.id (b.opposite_book o.side) o.remaining
      (b.submit_order o).1.trades := by
  have hcore : trades_spec o.side o.id (b.opposite_book o.side) o.remaining
      (submit_core b o).1.trades := by
    rcases submit_core_trades b o with h | h
    · rw [h]
      exact match_loop_spec o.side (o.order_type == OrderType.market) o.price o.id
        b.symbol (b.opposite_book o.side) (b.opposite_book o.side)
        (fun e he => he) o.remaining b.trade_seq
    · rw [h]
      trivial
  unfold OrderBook.submit_order
  by_cases hf : o.order_type = OrderType.fok
  · rw [if_pos hf]
    by_cases he : (b.opposite_book o.side).isEmpty = true
    · simp only [if_pos he]
      trivial
    · simp only [if_neg he]
      by_cases hq :
          (if o.order_type = OrderType.market then sum_book_total (b.opposite_book o.side)
            else fok_acceptable_total o.side (o.price.getD 0) (b.opposite_book o.side)) <
            o.quantity
      · simp only [if_pos hq]
        trivial
      · simp only [if_neg hq]
        exact hcore
  · rw [if_neg hf]
    exact hcore

/-! ## Helper lemmas: index freshness through matching -/

lemma lookupOrd_eraseOrd_none (k k2 : String) :
    ∀ l : List (String × Order), lookupOrd l k = none →
      lookupOrd (eraseOrd l k2) k = none := by
  intro l
  induction l with
  | nil => intro _; rfl
  | cons kv rest ih =>
    intro h
    by_cases hk : kv.1 = k
    · simp [lookupOrd, if_pos hk] at h
    · simp only [lookupOrd, if_neg hk] at h
      by_cases hk2 : kv.1 = k2
      · simp only [eraseOrd, if_pos hk2]
        exact h
      · simp only [eraseOrd, if_neg hk2, lookupOrd, if_neg hk]
        exact ih h

lemma lookupOrd_removeIds_none (k : String) :
    ∀ (ids : List String) (l : List (String × Order)),
      lookupOrd l k = none → lookupOrd (removeIds l ids) k = none := by
  intro ids
  induction ids with
  | nil => intro l h; exact h
  | cons i rest ih =>
    intro l h
    show lookupOrd (removeIds (eraseOrd l i) rest) k = none
    exact ih _ (lookupOrd_eraseOrd_none k i l h)

lemma lookupOrd_map_upd_none (k : String) (iu : String × ℚ) :
    ∀ l : List (String × Order), lookupOrd l k = none →
      lookupOrd
        (l.map (fun kv =>
          if kv.1 = iu.1 then (kv.1, { kv.2 with remaining := iu.2 }) else kv)) k =
        none := by
  intro l
  induction l with
  | nil => intro _; rfl
  | cons kv rest ih =>
    intro h
    by_cases hk : kv.1 = k
    · simp [lookupOrd, if_pos hk] at h
    · simp only [lookupOrd, if_neg hk] at h
      by_cases hk2 : kv.1 = iu.1
      · simp only [List.map_cons, if_pos hk2, lookupOrd, if_neg hk]
        exact ih h
      · simp only [List.map_cons, if_neg hk2, lookupOrd, if_neg hk]
        exact ih h

lemma lookupOrd_apply_upd_none (k : String) :
    ∀ (upd : List (String × ℚ)) (l : List (String × Order)),
      lookupOrd l k = none → lookupOrd (apply_upd l upd) k = none := by
  intro upd
  induction upd with
  | nil => intro l h; exact h
  | cons iu rest ih =>
    intro l h
    show lookupOrd (apply_upd (l.map _) rest) k = none
    exact ih _ (lookupOrd_map_upd_none k iu l h)

/-! ## Claim C3 -/

/-- C3: a limit submit with remaining left after the matching loop is
appended (at the tail) to the same-side level at order.price and
registered under its id in the index, with status resting when no trades
occurred and partially filled otherwise; with nothing remaining the
status is filled and the order touches neither the same-side book nor
the index. -/
theorem c3_limit_disposition (b : OrderBook) (o : Order) (p : ℚ)
    (ho : o.order_type = OrderType.limit) (hp : o.price = some p) :
    (0 < (submit_match b o).rem →
      (∃ lvl, findLevel (((b.submit_order o).2).same_book o.side) p = some lvl ∧
        lvl.queue.getLast? = some { o with remaining := (submit_match b o).rem }) ∧
      lookupOrd ((b.submit_order o).2).orders o.id =
        some { o with remaining := (submit_match b o).rem } ∧
      (b.submit_order o).1.status =
        (if (submit_match b o).trades.isEmpty then OrderStatus.resting
          else OrderStatus.partially_filled)) ∧
    ((submit_match b o).rem = 0 →
      (b.submit_order o).1.status = OrderStatus.filled ∧
      ((b.submit_order o).2).same_book o.side = b.same_book o.side ∧
      (lookupOrd b.orders o.id = none →
        lookupOrd ((b.submit_order o).2).orders o.id = none)) := by
  have hnf : ¬ (o.order_type = OrderType.fok) := by rw [ho]; decide
  have hni : ¬ (o.order_type = OrderType.ioc) := by rw [ho]; decide
  rw [show b.submit_order o = submit_core b o by
    unfold OrderBook.submit_order; rw [if_neg hnf]]
  constructor
  · intro hrem
    have hcond : 0 < (submit_match b o).rem ∧ o.order_type = OrderType.limit :=
      ⟨hrem, ho⟩
    have hcore : submit_core b o =
        ({ order_id := o.id,
           status := if (submit_match b o).trades.isEmpty then OrderStatus.resting
             else OrderStatus.partially_filled,
           reason := none, trades := (submit_match b o).trades },
         (((b.set_opposite o.side (submit_match b o).opp).with_orders_seq
             (apply_upd (removeIds b.orders (submit_match b o).removed)
               (submit_match b o).upd) (submit_match b o).seq).set_same o.side
            (ensure_level_add o.side (o.price.getD 0)
              { o with remaining := (submit_match b o).rem }
              (((b.set_opposite o.side (submit_match b o).opp).with_orders_seq
                (apply_upd (removeIds b.orders (submit_match b o).removed)
                  (submit_match b o).upd) (submit_match b o).seq).same_book
                o.side))).with_orders
          (upsertOrd
            (apply_upd (removeIds b.orders (submit_match b o).removed)
              (submit_match b o).upd) o.id
            { o with remaining := (submit_match b o).rem })) := by
      unfold submit_core
      rw [if_neg hni, if_neg hnf, if_pos hcond]
    rw [hcore]
    refine ⟨?_, ?_, rfl⟩
    · have hgetd : o.price.getD 0 = p := by rw [hp]; rfl
      rw [same_book_with_orders, same_book_set_same, hgetd]
      obtain ⟨q0, t0, hfl⟩ :=
        findLevel_ensure_level_add o.side p
          { o with remaining := (submit_match b o).rem }
          (((b.set_opposite o.side (submit_match b o).opp).with_orders_seq
            (apply_upd (removeIds b.orders (submit_match b o).removed)
              (submit_match b o).upd) (submit_match b o).seq).same_book o.side)
      exact ⟨_, hfl, List.getLast?_concat _⟩
    · exact lookupOrd_upsert_self _ _ _
  · intro hrem0
    have hcond : ¬ (0 < (submit_match b o).rem ∧ o.order_type = OrderType.limit) := by
      rw [hrem0]
      simp
    have hrpos : ¬ (0 < (submit_match b o).rem) := by
      rw [hrem0]
      simp
    have hcore : submit_core b o =
        ({ order_id := o.id, status := OrderStatus.filled, reason := none,
           trades := (submit_match b o).trades },
         (b.set_opposite o.side (submit_match b o).opp).with_orders_seq
           (apply_upd (removeIds b.orders (submit_match b o).removed)
             (submit_match b o).upd) (submit_match b o).seq) := by
      unfold submit_core
      rw [if_neg hni, if_neg hnf, if_neg hcond, if_neg hrpos]
    rw [hcore]
    refine ⟨rfl, ?_, ?_⟩
    · rw [same_book_with_orders_seq, same_book_set_opposite]
    · intro hfresh
      show lookupOrd
        ((((b.set_opposite o.side (submit_match b o).opp)).with_orders_seq _ _)).orders
        o.id = none
      have horders :
          (((b.set_opposite o.side (submit_match b o).opp)).with_orders_seq
            (apply_upd (removeIds b.orders (submit_match b o).removed)
              (submit_match b o).upd) (submit_match b o).seq).orders =
            apply_upd (removeIds b.orders (submit_match b o).removed)
              (submit_match b o).upd := rfl
      rw [horders]
      have hfresh2 :
          lookupOrd (b.set_opposite o.side (submit_match b o).opp).orders o.id =
            none := by
        have : (b.set_opposite o.side (submit_match b o).opp).orders = b.orders := by
          cases hs : o.side <;> simp [OrderBook.set_opposite, hs]
        rw [this]
        exact hfresh
      exact lookupOrd_apply_upd_none o.id _ _
        (lookupOrd_removeIds_none o.id _ _ hfresh)

lemma submit_core_ioc (b : OrderBook) (o : Order)
    (ho : o.order_type = OrderType.ioc) :
    submit_core b o =
      ({ order_id := o.id,
         status := if 0 < (submit_match b o).rem then
             (if (submit_match b o).trades.isEmpty then OrderStatus.canceled
               else OrderStatus.partially_filled)
           else OrderStatus.filled,
         reason := none, trades := (submit_match b o).trades },
       (b.set_opposite o.side (submit_match b o).opp).with_orders_seq
         (apply_upd (removeIds b.orders (submit_match b o).removed)
           (submit_match b o).upd) (submit_match b o).seq) := by
  unfold submit_core
  rw [if_pos ho]
  by_cases hr : 0 < (submit_match b o).rem
  · rw [if_pos hr, if_pos hr]
  · rw [if_neg hr, if_neg hr]

lemma submit_core_market (b : OrderBook) (o : Order)
    (ho : o.order_type = OrderType.market) :
    submit_core b o =
      ({ order_id := o.id,
         status := if 0 < (submit_match b o).rem then
             (if (submit_match b o).trades.isEmpty then OrderStatus.canceled
               else OrderStatus.partially_filled)
           else OrderStatus.filled,
         reason := none, trades := (submit_match b o).trades },
       (b.set_opposite o.side (submit_match b o).opp).with_orders_seq
         (apply_upd (removeIds b.orders (submit_match b o).removed)
           (submit_match b o).upd) (submit_match b o).seq) := by
  have hni : ¬ (o.order_type = OrderType.ioc) := by rw [ho]; decide
  have hnf : ¬ (o.order_type = OrderType.fok) := by rw [ho]; decide
  have hnl : ¬ (0 < (submit_match b o).rem ∧ o.order_type = OrderType.limit) := by
    rw [ho]
    rintro ⟨_, hc⟩
    cases hc
  unfold submit_core
  rw [if_neg hni, if_neg hnf, if_neg hnl]
  by_cases hr : 0 < (submit_match b o).rem
  · rw [if_pos hr, if_pos hr]
  · rw [if_neg hr, if_neg hr]

lemma submit_match_empty_opp (b : OrderBook) (o : Order)
    (hopp : b.opposite_book o.side = []) :
    submit_match b o =
      { rem := o.remaining, opp := [], trades := [], removed := [], upd := [],
        seq := b.trade_seq } := by
  unfold submit_match
  rw [hopp]
  rfl

lemma set_opposite_orders (b : OrderBook) (s : Side)
    (lst : List (ℚ × PriceLevel)) :
    (b.set_opposite s lst).orders = b.orders := by
  cases s <;> rfl

/-! ## Claim C4 -/

/-- C4: an IOC or market submit never rests: the same-side book is
untouched and a fresh id is never registered in the index; the status is
partially filled when remainder is left and at least one trade occurred,
canceled when remainder is left with no trade (in particular a market
order against an empty opposite side), and filled when nothing remains. -/
theorem c4_ioc_market_disposition (b : OrderBook) (o : Order)
    (ho : o.order_type = OrderType.ioc ∨ o.order_type = OrderType.market)
    (hq : 0 < o.remaining) :
    ((b.submit_order o).2).same_book o.side = b.same_book o.side ∧
    (lookupOrd b.orders o.id = none →
      lookupOrd ((b.submit_order o).2).orders o.id = none) ∧
    (b.submit_order o).1.status =
      (if 0 < (submit_match b o).rem then
        (if (submit_match b o).trades.isEmpty then OrderStatus.canceled
          else OrderStatus.partially_filled)
        else OrderStatus.filled) ∧
    (b.opposite_book o.side = [] →
      (b.submit_order o).1.status = OrderStatus.canceled ∧
      (b.submit_order o).1.trades = []) := by
  have hnf : ¬ (o.order_type = OrderType.fok) := by
    rcases ho with h | h <;> rw [h] <;> decide
  have hsub : b.submit_order o = submit_core b o := by
    unfold OrderBook.submit_order
    rw [if_neg hnf]
  have hcore : submit_core b o =
      ({ order_id := o.id,
         status := if 0 < (submit_match b o).rem then
             (if (submit_match b o).trades.isEmpty then OrderStatus.canceled
               else OrderStatus.partially_filled)
           else OrderStatus.filled,
         reason := none, trades := (submit_match b o).trades },
       (b.set_opposite o.side (submit_match b o).opp).with_orders_seq
         (apply_upd (removeIds b.orders (submit_match b o).removed)
           (submit_match b o).upd) (submit_match b o).seq) := by
    rcases ho with h | h
    · exact submit_core_ioc b o h
    · exact submit_core_market b o h
  rw [hsub, hcore]
  refine ⟨?_, ?_, rfl, ?_⟩
  · rw [same_book_with_orders_seq, same_book_set_opposite]
  · intro hfresh
    show lookupOrd
      (apply_upd (removeIds b.orders (submit_match b o).removed)
        (submit_match b o).upd) o.id = none
    exact lookupOrd_apply_upd_none o.id _ _
      (lookupOrd_removeIds_none o.id _ _ hfresh)
  · intro hopp
    rw [submit_match_empty_opp b o hopp]
    simp [hq]

/-- Witness for C4, the market-on-empty-book boundary: a market buy on a
fresh book is canceled with no trades and rests nowhere. -/
theorem c4_ioc_market_disposition_witness :
    (((empty_book "S").submit_order
        ⟨"m1", "S", Side.buy, OrderType.market, 1, none, 1⟩).2).same_book Side.buy =
      (empty_book "S").same_book Side.buy ∧
    ((empty_book "S").submit_order
        ⟨"m1", "S", Side.buy, OrderType.market, 1, none, 1⟩).1.status =
      OrderStatus.canceled ∧
    ((empty_book "S").submit_order
        ⟨"m1", "S", Side.buy, OrderType.market, 1, none, 1⟩).1.trades = [] := by
  have h := c4_ioc_market_disposition (empty_book "S")
    ⟨"m1", "S", Side.buy, OrderType.market, 1, none, 1⟩ (Or.inr rfl) (by norm_num)
  have hempty := h.2.2.2 rfl
  exact ⟨h.1, hempty.1, hempty.2⟩

/-- Witness for C3: a limit buy on a fresh book rests in full at its
price. -/
theorem c3_limit_disposition_witness :
    ((empty_book "S").submit_order
        ⟨"b1", "S", Side.buy, OrderType.limit, 2, some 90, 2⟩).1.status =
      OrderStatus.resting := by
  have h := (c3_limit_disposition (empty_book "S")
      ⟨"b1", "S", Side.buy, OrderType.limit, 2, some 90, 2⟩ 90 rfl rfl).1
    (by norm_num [submit_match, match_loop, empty_book, OrderBook.opposite_book])
  rw [h.2.2]
  norm_num [submit_match, match_loop, empty_book, OrderBook.opposite_book]

/-! ## Helper lemmas: level invariants (cached totals, no empty level) -/

lemma levels_ok_nil : levels_ok [] := by
  intro e he
  cases he

lemma levels_ok_cons_head {e : ℚ × PriceLevel} {rest : List (ℚ × PriceLevel)}
    (h : levels_ok (e :: rest)) :
    e.2.queue ≠ [] ∧ e.2.total = queue_sum e.2.queue :=
  h e (List.mem_cons_self _ _)

lemma levels_ok_cons_tail {e : ℚ × PriceLevel} {rest : List (ℚ × PriceLevel)}
    (h : levels_ok (e :: rest)) : levels_ok rest :=
  fun x hx => h x (List.mem_cons_of_mem _ hx)

lemma levels_ok_cons {e : ℚ × PriceLevel} {rest : List (ℚ × PriceLevel)}
    (h1 : e.2.queue ≠ [] ∧ e.2.total = queue_sum e.2.queue)
    (h2 : levels_ok rest) : levels_ok (e :: rest) := by
  intro x hx
  rcases List.mem_cons.mp hx with hx | hx
  · subst hx; exact h1
  · exact h2 x hx

lemma match_level_total (aggr : Side) (tid sym : String) (bp : ℚ) :
    ∀ (q : List Order) (rem tot : ℚ) (seq : ℕ), tot = queue_sum q →
      (match_level aggr tid sym bp rem q tot seq).total =
        queue_sum (match_level aggr tid sym bp rem q tot seq).queue := by
  intro q
  induction q with
  | nil => intro rem tot seq h; simpa [match_level] using h
  | cons resting rest ih =>
    intro rem tot seq h
    by_cases h0 : 0 < rem
    · simp only [match_level, if_pos h0]
      by_cases hr : resting.remaining - min rem resting.remaining = 0
      · simp only [if_pos hr]
        apply ih
        have htq : min rem resting.remaining = resting.remaining :=
          by linarith [sub_eq_zero.mp hr]
        rw [h, htq]
        simp [queue_sum]
      · simp only [if_neg hr]
        rw [h]
        simp [queue_sum]
        ring
    · simp only [match_level, if_neg h0]
      exact h

lemma match_loop_levels_ok (aggr : Side) (isMkt : Bool) (oprice : Option ℚ)
    (tid sym : String) :
    ∀ (opp : List (ℚ × PriceLevel)) (rem : ℚ) (seq : ℕ), levels_ok opp →
      levels_ok (match_loop aggr isMkt oprice tid sym rem opp seq).opp := by
  intro opp
  induction opp with
  | nil => intro rem seq _; simpa [match_loop] using levels_ok_nil
  | cons e rest ih =>
    intro rem seq h
    obtain ⟨bp, lvl⟩ := e
    by_cases h0 : 0 < rem
    · simp only [match_loop, if_pos h0]
      by_cases ha : price_acceptable aggr isMkt oprice bp = true
      · simp only [if_pos ha]
        by_cases he :
            (match_level aggr tid sym bp rem lvl.queue lvl.total seq).queue.isEmpty = true
        · simp only [if_pos he]
          exact ih _ _ (levels_ok_cons_tail h)
        · simp only [if_neg he]
          apply levels_ok_cons
          · constructor
            · intro hq
              rw [← List.isEmpty_iff] at hq
              exact he hq
            · exact match_level_total aggr tid sym bp lvl.queue rem lvl.total seq
                (levels_ok_cons_head h).2
          · exact levels_ok_cons_tail h
      · simp only [if_neg ha]
        exact h
    · simp only [match_loop, if_neg h0]
      exact h

lemma updateLevel_add_levels_ok (p : ℚ) (o : Order) :
    ∀ lst : List (ℚ × PriceLevel), levels_ok lst →
      levels_ok (updateLevel lst p (fun lvl => lvl.add o)) := by
  intro lst
  induction lst with
  | nil => intro _; exact levels_ok_nil
  | cons e rest ih =>
    intro h
    by_cases hk : e.1 = p
    · simp only [updateLevel, if_pos hk]
      apply levels_ok_cons
      · constructor
        · simp [PriceLevel.add]
        · have := (levels_ok_cons_head h).2
          simp [PriceLevel.add, queue_sum, this]
      · exact levels_ok_cons_tail h
    · simp only [updateLevel, if_neg hk]
      exact levels_ok_cons (levels_ok_cons_head h) (ih (levels_ok_cons_tail h))

lemma insertLevel_levels_ok (s : Side) (p : ℚ) (lvl : PriceLevel)
    (hl : lvl.queue ≠ [] ∧ lvl.total = queue_sum lvl.queue) :
    ∀ lst : List (ℚ × PriceLevel), levels_ok lst →
      levels_ok (insertLevel s p lvl lst) := by
  intro lst
  induction lst with
  | nil =>
    intro _
    exact levels_ok_cons hl levels_ok_nil
  | cons e rest ih =>
    intro h
    simp only [insertLevel]
    by_cases hb : levelBefore s p e.1 = true
    · simp only [if_pos hb]
      exact levels_ok_cons hl h
    · simp only [if_neg hb]
      exact levels_ok_cons (levels_ok_cons_head h) (ih (levels_ok_cons_tail h))

lemma ensure_level_add_levels_ok (s : Side) (p : ℚ) (o : Order)
    (lst : List (ℚ × PriceLevel)) (h : levels_ok lst) :
    levels_ok (ensure_level_add s p o lst) := by
  unfold ensure_level_add
  by_cases ha : lst.any (fun e => e.1 = p) = true
  · rw [if_pos ha]
    exact updateLevel_add_levels_ok p o lst h
  · rw [if_neg ha]
    apply insertLevel_levels_ok s p _ _ lst h
    constructor
    · simp [PriceLevel.add]
    · simp [PriceLevel.add, queue_sum]

lemma eraseLevel_mem (p : ℚ) :
    ∀ (lst : List (ℚ × PriceLevel)) (e : ℚ × PriceLevel),
      e ∈ eraseLevel lst p → e ∈ lst := by
  intro lst
  induction lst with
  | nil => intro e he; cases he
  | cons x rest ih =>
    intro e he
    by_cases hk : x.1 = p
    · simp only [eraseLevel, if_pos hk] at he
      exact List.mem_cons_of_mem _ he
    · simp only [eraseLevel, if_neg hk] at he
      rcases List.mem_cons.mp he with he | he
      · exact he ▸ List.mem_cons_self _ _
      · exact List.mem_cons_of_mem _ (ih e he)

lemma remove_price_levels_ok (p : ℚ) (lst : List (ℚ × PriceLevel))
    (h : levels_ok lst) : levels_ok (remove_price_if_empty lst p) := by
  cases hf : findLevel lst p with
  | none =>
    simp only [remove_price_if_empty, hf]
    exact h
  | some lvl =>
    simp only [remove_price_if_empty, hf]
    by_cases he : lvl.queue.isEmpty = true
    · rw [if_pos he]
      intro e hme
      exact h e (eraseLevel_mem p lst e hme)
    · rw [if_neg he]
      exact h

lemma findLevel_mem (p : ℚ) :
    ∀ (lst : List (ℚ × PriceLevel)) (lvl : PriceLevel),
      findLevel lst p = some lvl → (p, lvl) ∈ lst := by
  intro lst
  induction lst with
  | nil => intro lvl h; cases h
  | cons e rest ih =>
    intro lvl h
    by_cases hk : e.1 = p
    · simp only [findLevel, if_pos hk] at h
      cases h
      have : e = (p, e.2) := by
        rw [← hk]
      rw [← this]
      exact List.mem_cons_self _ _
    · simp only [findLevel, if_neg hk] at h
      exact List.mem_cons_of_mem _ (ih lvl h)

lemma eraseById_sum (oid : String) :
    ∀ (q : List Order) (m : Order),
      q.find? (fun x => x.id = oid) = some m →
      queue_sum (eraseById q oid) = queue_sum q - m.remaining := by
  intro q
  induction q with
  | nil => intro m h; cases h
  | cons x rest ih =>
    intro m h
    by_cases hk : x.id = oid
    · rw [List.find?_cons_of_pos _ (by simp [hk])] at h
      cases h
      simp only [eraseById, if_pos hk]
      simp [queue_sum]
    · rw [List.find?_cons_of_neg _ (by simp [hk])] at h
      simp only [eraseById, if_neg hk]
      have h2 := ih m h
      simp only [queue_sum, List.map_cons, List.sum_cons] at h2 ⊢
      rw [h2]
      ring

lemma remove_price_cons_ne (e : ℚ × PriceLevel) (X : List (ℚ × PriceLevel))
    (p : ℚ) (h : ¬ (e.1 = p)) :
    remove_price_if_empty (e :: X) p = e :: remove_price_if_empty X p := by
  unfold remove_price_if_empty
  simp only [findLevel, if_neg h]
  cases hf : findLevel X p with
  | none => rfl
  | some lvl =>
    by_cases he : lvl.queue.isEmpty = true
    · simp only [if_pos he, eraseLevel, if_neg h]
    · simp only [if_neg he]

lemma remove_price_cons_eq (p : ℚ) (lvl2 : PriceLevel)
    (rest : List (ℚ × PriceLevel)) :
    remove_price_if_empty ((p, lvl2) :: rest) p =
      if lvl2.queue.isEmpty = true then rest else (p, lvl2) :: rest := by
  have hfl : findLevel ((p, lvl2) :: rest) p = some lvl2 := by
    simp [findLevel]
  simp only [remove_price_if_empty, hfl]
  by_cases he : lvl2.queue.isEmpty = true
  · rw [if_pos he, if_pos he]
    show eraseLevel ((p, lvl2) :: rest) p = rest
    simp [eraseLevel]
  · rw [if_neg he, if_neg he]

lemma remove_price_update_levels_ok (p : ℚ) (lvl2 : PriceLevel)
    (ht : lvl2.total = queue_sum lvl2.queue) :
    ∀ cont : List (ℚ × PriceLevel), levels_ok cont →
      levels_ok (remove_price_if_empty (updateLevel cont p (fun _ => lvl2)) p) := by
  intro cont
  induction cont with
  | nil => intro _; exact levels_ok_nil
  | cons e rest ih =>
    intro h
    by_cases hk : e.1 = p
    · simp only [updateLevel, if_pos hk]
      rw [remove_price_cons_eq]
      by_cases he : lvl2.queue.isEmpty = true
      · rw [if_pos he]
        exact levels_ok_cons_tail h
      · rw [if_neg he]
        apply levels_ok_cons
        · exact ⟨by simpa [List.isEmpty_iff] using he, ht⟩
        · exact levels_ok_cons_tail h
    · simp only [updateLevel, if_neg hk]
      rw [remove_price_cons_ne e _ p hk]
      exact levels_ok_cons (levels_ok_cons_head h) (ih (levels_ok_cons_tail h))

lemma remove_from_level_levels_ok (oprice : Option ℚ) (oid : String)
    (cont : List (ℚ × PriceLevel)) (h : levels_ok cont) :
    levels_ok (remove_from_level cont oprice oid) := by
  cases oprice with
  | none => exact h
  | some p =>
    cases hf : findLevel cont p with
    | none =>
      simp only [remove_from_level, hf]
      exact h
    | some lvl =>
      cases hfind : lvl.queue.find? (fun q => q.id = oid) with
      | none =>
        simp only [remove_from_level, hf, hfind]
        exact remove_price_levels_ok p cont h
      | some m =>
        simp only [remove_from_level, hf, hfind]
        apply remove_price_update_levels_ok
        · have hlv := h (p, lvl) (findLevel_mem p cont lvl hf)
          show lvl.total - m.remaining = queue_sum (eraseById lvl.queue oid)
          rw [eraseById_sum oid lvl.queue m hfind, hlv.2]
        · exact h

lemma levels_ok_same_of_book (x : OrderBook) (s : Side)
    (h : book_levels_ok x) : levels_ok (x.same_book s) := by
  cases s
  · exact h.2
  · exact h.1

lemma levels_ok_opp_of_book (x : OrderBook) (s : Side)
    (h : book_levels_ok x) : levels_ok (x.opposite_book s) := by
  cases s
  · exact h.1
  · exact h.2

lemma book_levels_ok_of_sides (x : OrderBook) (s : Side)
    (h1 : levels_ok (x.same_book s)) (h2 : levels_ok (x.opposite_book s)) :
    book_levels_ok x := by
  cases s
  · exact ⟨h2, h1⟩
  · exact ⟨h1, h2⟩

lemma submit_core_book_cases (b : OrderBook) (o : Order) :
    (submit_core b o).2 =
      (b.set_opposite o.side (submit_match b o).opp).with_orders_seq
        (apply_upd (removeIds b.orders (submit_match b o).removed)
          (submit_match b o).upd) (submit_match b o).seq ∨
    (submit_core b o).2 =
      (((b.set_opposite o.side (submit_match b o).opp).with_orders_seq
          (apply_upd (removeIds b.orders (submit_match b o).removed)
            (submit_match b o).upd) (submit_match b o).seq).set_same o.side
         (ensure_level_add o.side (o.price.getD 0)
           { o with remaining := (submit_match b o).rem }
           (((b.set_opposite o.side (submit_match b o).opp).with_orders_seq
             (apply_upd (removeIds b.orders (submit_match b o).removed)
               (submit_match b o).upd) (submit_match b o).seq).same_book
             o.side))).with_orders
        (upsertOrd
          (apply_upd (removeIds b.orders (submit_match b o).removed)
            (submit_match b o).upd) o.id
          { o with remaining := (submit_match b o).rem }) ∧
      0 < (submit_match b o).rem ∧ o.order_type = OrderType.limit := by
  unfold submit_core
  by_cases h1 : o.order_type = OrderType.ioc
  · rw [if_pos h1]
    by_cases hr : 0 < (submit_match b o).rem
    · rw [if_pos hr]; left; rfl
    · rw [if_neg hr]; left; rfl
  · rw [if_neg h1]
    by_cases h2 : o.order_type = OrderType.fok
    · rw [if_pos h2]
      by_cases hr : 0 < (submit_match b o).rem
      · rw [if_pos hr]; left; rfl
      · rw [if_neg hr]; left; rfl
    · rw [if_neg h2]
      by_cases h3 : 0 < (submit_match b o).rem ∧ o.order_type = OrderType.limit
      · rw [if_pos h3]; exact Or.inr ⟨rfl, h3.1, h3.2⟩
      · rw [if_neg h3]
        by_cases h4 : 0 < (submit_match b o).rem
        · rw [if_pos h4]; left; rfl
        · rw [if_neg h4]; left; rfl

lemma submit_core_levels_ok (b : OrderBook) (o : Order)
    (h : book_levels_ok b) : book_levels_ok (submit_core b o).2 := by
  have hloop : levels_ok (submit_match b o).opp := by
    unfold submit_match
    exact match_loop_levels_ok _ _ _ _ _ _ _ _ (levels_ok_opp_of_book b o.side h)
  rcases submit_core_book_cases b o with hc | ⟨hc, _, _⟩ <;> rw [hc]
  · apply book_levels_ok_of_sides _ o.side
    · rw [same_book_with_orders_seq, same_book_set_opposite]
      exact levels_ok_same_of_book b o.side h
    · rw [opposite_book_with_orders_seq, opposite_book_set_opposite]
      exact hloop
  · apply book_levels_ok_of_sides _ o.side
    · rw [same_book_with_orders, same_book_set_same]
      apply ensure_level_add_levels_ok
      rw [same_book_with_orders_seq, same_book_set_opposite]
      exact levels_ok_same_of_book b o.side h
    · rw [opposite_book_with_orders, opposite_book_set_same,
        opposite_book_with_orders_seq, opposite_book_set_opposite]
      exact hloop

lemma submit_levels_ok (b : OrderBook) (o : Order)
    (h : book_levels_ok b) : book_levels_ok (b.submit_order o).2 := by
  unfold OrderBook.submit_order
  by_cases hf : o.order_type = OrderType.fok
  · rw [if_pos hf]
    by_cases he : (b.opposite_book o.side).isEmpty = true
    · simp only [if_pos he]
      exact h
    · simp only [if_neg he]
      by_cases hq :
          (if o.order_type = OrderType.market then sum_book_total (b.opposite_book o.side)
            else fok_acceptable_total o.side (o.price.getD 0) (b.opposite_book o.side)) <
            o.quantity
      · simp only [if_pos hq]
        exact h
      · simp only [if_neg hq]
        exact submit_core_levels_ok b o h
  · rw [if_neg hf]
    exact submit_core_levels_ok b o h

lemma cancel_levels_ok (b : OrderBook) (oid : String) (b2 : OrderBook)
    (hc : cancel_in_book b oid = some b2) (h : book_levels_ok b) :
    book_levels_ok b2 := by
  cases hl : lookupOrd b.orders oid with
  | none =>
    simp only [cancel_in_book, hl] at hc
    cases hc
  | some ord =>
    simp only [cancel_in_book, hl] at hc
    rw [← Option.some.inj hc]
    apply book_levels_ok_of_sides _ ord.side
    · rw [same_book_with_orders, same_book_set_same]
      exact remove_from_level_levels_ok _ _ _ (levels_ok_same_of_book b ord.side h)
    · rw [opposite_book_with_orders, opposite_book_set_same]
      exact levels_ok_opp_of_book b ord.side h

lemma modify_in_book_shape (b : OrderBook) (oid : String)
    (q p : Option ℚ) (b2 : OrderBook)
    (hm : modify_in_book b oid q p = some b2) :
    ∃ ord ord2 p2, lookupOrd b.orders oid = some ord ∧
      b2 = (b.set_same ord.side (ensure_level_add ord.side p2 ord2
          (remove_from_level (b.same_book ord.side) ord.price oid))).with_orders
        (upsertOrd b.orders oid ord2) := by
  cases hl : lookupOrd b.orders oid with
  | none =>
    simp only [modify_in_book, hl] at hm
    cases hm
  | some ord =>
    simp only [modify_in_book, hl] at hm
    cases q with
    | none =>
      cases p with
      | none =>
        cases hp : ord.price with
        | none =>
          simp only [hp] at hm
          cases hm
        | some pp =>
          simp only [hp] at hm
          refine ⟨ord, ord, pp, rfl, ?_⟩
          rw [hp]
          exact (Option.some.inj hm).symm
      | some pp =>
        exact ⟨ord, { ord with price := some pp }, pp, rfl,
          (Option.some.inj hm).symm⟩
    | some qq =>
      cases p with
      | none =>
        cases hp : ord.price with
        | none =>
          simp only [hp] at hm
          cases hm
        | some pp =>
          simp only [hp] at hm
          refine ⟨ord, { ord with quantity := qq, remaining := qq }, pp, rfl, ?_⟩
          rw [hp]
          exact (Option.some.inj hm).symm
      | some pp =>
        exact ⟨ord, { ord with quantity := qq, remaining := qq, price := some pp },
          pp, rfl, (Option.some.inj hm).symm⟩

lemma modify_levels_ok (b : OrderBook) (oid : String) (q p : Option ℚ)
    (b2 : OrderBook) (hm : modify_in_book b oid q p = some b2)
    (h : book_levels_ok b) : book_levels_ok b2 := by
  obtain ⟨ord, ord2, p2, _, hb2⟩ := modify_in_book_shape b oid q p b2 hm
  rw [hb2]
  apply book_levels_ok_of_sides _ ord.side
  · rw [same_book_with_orders, same_book_set_same]
    exact ensure_level_add_levels_ok _ _ _ _
      (remove_from_level_levels_ok _ _ _ (levels_ok_same_of_book b ord.side h))
  · rw [opposite_book_with_orders, opposite_book_set_same]
    exact levels_ok_opp_of_book b ord.side h

/-! ## Claim C5 -/

/-- C5: in every book state reachable by any sequence of submits, cancels
and modifies, every price level hanging off the bids or asks map has a
non-empty queue and a cached total equal to the sum of remaining over its
queue. -/
theorem c5_level_invariants (b : OrderBook) (h : Reached b) :
    book_levels_ok b := by
  induction h with
  | init sym => exact ⟨levels_ok_nil, levels_ok_nil⟩
  | submit b o _ _ ih => exact submit_levels_ok b o ih
  | cancel b oid b2 _ hc ih => exact cancel_levels_ok b oid b2 hc ih
  | modify b oid q p b2 _ hm ih => exact modify_levels_ok b oid q p b2 hm ih

/-- Witness for C5 at a concrete reachable state: one resting sell on a
fresh book. -/
theorem c5_level_invariants_witness :
    book_levels_ok
      ((empty_book "S").submit_order
        ⟨"s1", "S", Side.sell, OrderType.limit, 1, some 101, 1⟩).2 :=
  c5_level_invariants _
    (Reached.submit _ _ (Reached.init "S")
      ⟨by decide, by norm_num, rfl,
        fun p hp => by rw [← Option.some.inj hp]; norm_num,
        by intro _ hc; cases hc⟩)

/-! ## Helper lemmas: sortedness and the uncrossed-book invariant -/

lemma pairwise_head_rel {r : ℚ → ℚ → Prop} :
    ∀ (l : List ℚ), l.Pairwise r → ∀ x ∈ l, ∀ hd, l.head? = some hd →
      hd = x ∨ r hd x := by
  intro l hp x hx hd hhd
  cases l with
  | nil => cases hx
  | cons a t =>
    cases hhd
    rcases List.mem_cons.mp hx with hx | hx
    · exact Or.inl hx.symm
    · exact Or.inr ((List.pairwise_cons.mp hp).1 x hx)

lemma updateLevel_keys (p : ℚ) (f : PriceLevel → PriceLevel) :
    ∀ lst : List (ℚ × PriceLevel),
      keysOf (updateLevel lst p f) = keysOf lst := by
  intro lst
  induction lst with
  | nil => rfl
  | cons e rest ih =>
    by_cases hk : e.1 = p
    · simp only [updateLevel, if_pos hk, keysOf, List.map_cons]
      rw [hk]
    · simp only [updateLevel, if_neg hk, keysOf, List.map_cons]
      have ih2 := ih
      simp only [keysOf] at ih2
      rw [ih2]

lemma eraseLevel_keys_sublist (p : ℚ) :
    ∀ lst : List (ℚ × PriceLevel),
      List.Sublist (keysOf (eraseLevel lst p)) (keysOf lst) := by
  intro lst
  induction lst with
  | nil => exact List.Sublist.refl _
  | cons e rest ih =>
    by_cases hk : e.1 = p
    · simp only [eraseLevel, if_pos hk, keysOf, List.map_cons]
      exact List.sublist_cons_self _ _
    · simp only [eraseLevel, if_neg hk, keysOf, List.map_cons]
      exact List.Sublist.cons₂ _ ih

lemma remove_price_keys_sublist (p : ℚ) (lst : List (ℚ × PriceLevel)) :
    List.Sublist (keysOf (remove_price_if_empty lst p)) (keysOf lst) := by
  cases hf : findLevel lst p with
  | none =>
    simp only [remove_price_if_empty, hf]
    exact List.Sublist.refl _
  | some lvl =>
    simp only [remove_price_if_empty, hf]
    by_cases he : lvl.queue.isEmpty = true
    · rw [if_pos he]
      exact eraseLevel_keys_sublist p lst
    · rw [if_neg he]

lemma remove_from_level_keys_sublist (oprice : Option ℚ) (oid : String)
    (cont : List (ℚ × PriceLevel)) :
    List.Sublist (keysOf (remove_from_level cont oprice oid)) (keysOf cont) := by
  cases oprice with
  | none => exact List.Sublist.refl _
  | some p =>
    cases hf : findLevel cont p with
    | none =>
      simp only [remove_from_level, hf]
      exact List.Sublist.refl _
    | some lvl =>
      cases hfind : lvl.queue.find? (fun q => q.id = oid) with
      | none =>
        simp only [remove_from_level, hf, hfind]
        exact remove_price_keys_sublist p cont
      | some m =>
        simp only [remove_from_level, hf, hfind]
        have h1 := remove_price_keys_sublist p
          (updateLevel cont p (fun _ =>
            { queue := eraseById lvl.queue oid, total := lvl.total - m.remaining }))
        rw [updateLevel_keys] at h1
        exact h1

lemma match_loop_keys_suffix (aggr : Side) (isMkt : Bool) (oprice : Option ℚ)
    (tid sym : String) :
    ∀ (opp : List (ℚ × PriceLevel)) (rem : ℚ) (seq : ℕ),
      List.IsSuffix (keysOf (match_loop aggr isMkt oprice tid sym rem opp seq).opp)
        (keysOf opp) := by
  intro opp
  induction opp with
  | nil => intro rem seq; exact List.suffix_refl _
  | cons e rest ih =>
    intro rem seq
    obtain ⟨bp, lvl⟩ := e
    by_cases h0 : 0 < rem
    · simp only [match_loop, if_pos h0]
      by_cases ha : price_acceptable aggr isMkt oprice bp = true
      · simp only [if_pos ha]
        by_cases he :
            (match_level aggr tid sym bp rem lvl.queue lvl.total seq).queue.isEmpty = true
        · simp only [if_pos he]
          exact (ih _ _).trans (List.suffix_cons bp (keysOf rest))
        · simp only [if_neg he]
          exact List.suffix_refl _
      · simp only [if_neg ha]
        exact List.suffix_refl _
    · simp only [match_loop, if_neg h0]
      exact List.suffix_refl _

lemma match_level_queue_rem (aggr : Side) (tid sym : String) (bp : ℚ) :
    ∀ (q : List Order) (rem tot : ℚ) (seq : ℕ),
      (match_level aggr tid sym bp rem q tot seq).queue ≠ [] →
      ¬ 0 < (match_level aggr tid sym bp rem q tot seq).rem := by
  intro q
  induction q with
  | nil => intro rem tot seq h; simp [match_level] at h
  | cons resting rest ih =>
    intro rem tot seq h
    by_cases h0 : 0 < rem
    · simp only [match_level, if_pos h0] at h ⊢
      by_cases hr : resting.remaining - min rem resting.remaining = 0
      · simp only [if_pos hr] at h ⊢
        exact ih _ _ _ h
      · simp only [if_neg hr] at h ⊢
        have hmin : min rem resting.remaining = rem := by
          rcases min_choice rem resting.remaining with hm | hm
          · exact hm
          · exact absurd (by rw [hm]; ring) hr
        rw [hmin]
        simp
    · simp only [match_level, if_neg h0] at h ⊢
      exact h0

lemma match_loop_exit (aggr : Side) (isMkt : Bool) (oprice : Option ℚ)
    (tid sym : String) :
    ∀ (opp : List (ℚ × PriceLevel)) (rem : ℚ) (seq : ℕ),
      0 < (match_loop aggr isMkt oprice tid sym rem opp seq).rem →
      (match_loop aggr isMkt oprice tid sym rem opp seq).opp = [] ∨
      ∃ bp lvl rest2,
        (match_loop aggr isMkt oprice tid sym rem opp seq).opp =
          (bp, lvl) :: rest2 ∧
        price_acceptable aggr isMkt oprice bp = false := by
  intro opp
  induction opp with
  | nil => intro rem seq _; exact Or.inl rfl
  | cons e rest ih =>
    intro rem seq h
    obtain ⟨bp, lvl⟩ := e
    by_cases h0 : 0 < rem
    · simp only [match_loop, if_pos h0] at h ⊢
      by_cases ha : price_acceptable aggr isMkt oprice bp = true
      · simp only [if_pos ha] at h ⊢
        by_cases he :
            (match_level aggr tid sym bp rem lvl.queue lvl.total seq).queue.isEmpty = true
        · simp only [if_pos he] at h ⊢
          exact ih _ _ h
        · simp only [if_neg he] at h
          have hne :
              (match_level aggr tid sym bp rem lvl.queue lvl.total seq).queue ≠ [] := by
            intro hq
            rw [← List.isEmpty_iff] at hq
            exact he hq
          exact absurd h (match_level_queue_rem aggr tid sym bp lvl.queue rem
            lvl.total seq hne)
      · simp only [if_neg ha]
        exact Or.inr ⟨bp, lvl, rest, rfl, by simpa using ha⟩
    · simp only [match_loop, if_neg h0] at h
      exact absurd h h0

lemma insertLevel_keys_mem (s : Side) (p : ℚ) (lvl : PriceLevel) :
    ∀ (lst : List (ℚ × PriceLevel)) (x : ℚ),
      x ∈ keysOf (insertLevel s p lvl lst) → x = p ∨ x ∈ keysOf lst := by
  intro lst
  induction lst with
  | nil =>
    intro x hx
    simp only [insertLevel, keysOf, List.map_cons, List.map_nil] at hx
    rcases List.mem_cons.mp hx with hx | hx
    · exact Or.inl hx
    · cases hx
  | cons e rest ih =>
    intro x hx
    simp only [insertLevel] at hx
    by_cases hb : levelBefore s p e.1 = true
    · simp only [if_pos hb, keysOf, List.map_cons] at hx
      rcases List.mem_cons.mp hx with hx | hx
      · exact Or.inl hx
      · exact Or.inr hx
    · simp only [if_neg hb, keysOf, List.map_cons] at hx
      rcases List.mem_cons.mp hx with hx | hx
      · exact Or.inr (by rw [hx]; exact List.mem_cons_self _ _)
      · rcases ih x hx with hx2 | hx2
        · exact Or.inl hx2
        · exact Or.inr (List.mem_cons_of_mem _ hx2)

lemma insertLevel_head (s : Side) (p : ℚ) (lvl : PriceLevel) :
    ∀ (lst : List (ℚ × PriceLevel)) (hd : ℚ),
      (keysOf (insertLevel s p lvl lst)).head? = some hd →
      hd = p ∨ (keysOf lst).head? = some hd := by
  intro lst hd h
  cases lst with
  | nil =>
    simp only [insertLevel, keysOf, List.map_cons, List.map_nil, List.head?] at h
    exact Or.inl (Option.some.inj h).symm
  | cons e rest =>
    simp only [insertLevel] at h
    by_cases hb : levelBefore s p e.1 = true
    · simp only [if_pos hb, keysOf, List.map_cons, List.head?] at h
      exact Or.inl (Option.some.inj h).symm
    · simp only [if_neg hb, keysOf, List.map_cons, List.head?] at h
      exact Or.inr (by simp [keysOf, List.head?, ← h])

lemma insertLevel_sorted_bids (p : ℚ) (lvl : PriceLevel) :
    ∀ lst : List (ℚ × PriceLevel),
      (keysOf lst).Pairwise (· > ·) → (∀ e ∈ lst, e.1 ≠ p) →
      (keysOf (insertLevel Side.buy p lvl lst)).Pairwise (· > ·) := by
  intro lst
  induction lst with
  | nil => intro _ _; simp [insertLevel, keysOf]
  | cons e rest ih =>
    intro hs hne
    have hpw := List.pairwise_cons.mp hs
    simp only [insertLevel]
    by_cases hb : levelBefore Side.buy p e.1 = true
    · have hpe : e.1 < p := by simpa [levelBefore] using hb
      simp only [if_pos hb, keysOf, List.map_cons]
      apply List.pairwise_cons.mpr
      constructor
      · intro x hx
        rcases List.mem_cons.mp hx with hx | hx
        · rw [hx]; exact hpe
        · exact lt_trans (hpw.1 x hx) hpe
      · exact hs
    · have hep : p < e.1 := by
        have h1 : ¬ (e.1 < p) := by simpa [levelBefore] using hb
        rcases lt_trichotomy p e.1 with h | h | h
        · exact h
        · exact absurd h.symm (hne e (List.mem_cons_self _ _))
        · exact absurd h h1
      simp only [if_neg hb, keysOf, List.map_cons]
      apply List.pairwise_cons.mpr
      constructor
      · intro x hx
        rcases insertLevel_keys_mem Side.buy p lvl rest x hx with hx2 | hx2
        · rw [hx2]; exact hep
        · exact hpw.1 x hx2
      · exact ih hpw.2 (fun x hx => hne x (List.mem_cons_of_mem _ hx))

lemma insertLevel_sorted_asks (p : ℚ) (lvl : PriceLevel) :
    ∀ lst : List (ℚ × PriceLevel),
      (keysOf lst).Pairwise (· < ·) → (∀ e ∈ lst, e.1 ≠ p) →
      (keysOf (insertLevel Side.sell p lvl lst)).Pairwise (· < ·) := by
  intro lst
  induction lst with
  | nil => intro _ _; simp [insertLevel, keysOf]
  | cons e rest ih =>
    intro hs hne
    have hpw := List.pairwise_cons.mp hs
    simp only [insertLevel]
    by_cases hb : levelBefore Side.sell p e.1 = true
    · have hpe : p < e.1 := by simpa [levelBefore] using hb
      simp only [if_pos hb, keysOf, List.map_cons]
      apply List.pairwise_cons.mpr
      constructor
      · intro x hx
        rcases List.mem_cons.mp hx with hx | hx
        · rw [hx]; exact hpe
        · exact lt_trans hpe (hpw.1 x hx)
      · exact hs
    · have hep : e.1 < p := by
        have h1 : ¬ (p < e.1) := by simpa [levelBefore] using hb
        rcases lt_trichotomy p e.1 with h | h | h
        · exact absurd h h1
        · exact absurd h.symm (hne e (List.mem_cons_self _ _))
        · exact h
      simp only [if_neg hb, keysOf, List.map_cons]
      apply List.pairwise_cons.mpr
      constructor
      · intro x hx
        rcases insertLevel_keys_mem Side.sell p lvl rest x hx with hx2 | hx2
        · rw [hx2]; exact hep
        · exact hpw.1 x hx2
      · exact ih hpw.2 (fun x hx => hne x (List.mem_cons_of_mem _ hx))

lemma ensure_keys_mem (s : Side) (p : ℚ) (o : Order)
    (lst : List (ℚ × PriceLevel)) (x : ℚ)
    (hx : x ∈ keysOf (ensure_level_add s p o lst)) :
    x = p ∨ x ∈ keysOf lst := by
  unfold ensure_level_add at hx
  by_cases ha : lst.any (fun e => e.1 = p) = true
  · rw [if_pos ha, updateLevel_keys] at hx
    exact Or.inr hx
  · rw [if_neg ha] at hx
    exact insertLevel_keys_mem s p _ lst x hx

lemma ensure_sorted_bids (p : ℚ) (o : Order)
    (lst : List (ℚ × PriceLevel)) (hs : (keysOf lst).Pairwise (· > ·)) :
    (keysOf (ensure_level_add Side.buy p o lst)).Pairwise (· > ·) := by
  unfold ensure_level_add
  by_cases ha : lst.any (fun e => e.1 = p) = true
  · rw [if_pos ha, updateLevel_keys]
    exact hs
  · rw [if_neg ha]
    have hf : lst.any (fun e => e.1 = p) = false := by
      cases hb : lst.any (fun e => e.1 = p)
      · rfl
      · exact absurd hb ha
    exact insertLevel_sorted_bids p _ lst hs (keys_ne_of_any_false p lst hf)

lemma ensure_sorted_asks (p : ℚ) (o : Order)
    (lst : List (ℚ × PriceLevel)) (hs : (keysOf lst).Pairwise (· < ·)) :
    (keysOf (ensure_level_add Side.sell p o lst)).Pairwise (· < ·) := by
  unfold ensure_level_add
  by_cases ha : lst.any (fun e => e.1 = p) = true
  · rw [if_pos ha, updateLevel_keys]
    exact hs
  · rw [if_neg ha]
    have hf : lst.any (fun e => e.1 = p) = false := by
      cases hb : lst.any (fun e => e.1 = p)
      · rfl
      · exact absurd hb ha
    exact insertLevel_sorted_asks p _ lst hs (keys_ne_of_any_false p lst hf)

lemma ensure_head (s : Side) (p : ℚ) (o : Order)
    (lst : List (ℚ × PriceLevel)) (hd : ℚ)
    (h : (keysOf (ensure_level_add s p o lst)).head? = some hd) :
    hd = p ∨ (keysOf lst).head? = some hd := by
  unfold ensure_level_add at h
  by_cases ha : lst.any (fun e => e.1 = p) = true
  · rw [if_pos ha, updateLevel_keys] at h
    exact Or.inr h
  · rw [if_neg ha] at h
    exact insertLevel_head s p _ lst hd h

lemma keys_head (l : List (ℚ × PriceLevel)) :
    (keysOf l).head? = l.head?.map Prod.fst := by
  cases l <;> rfl

lemma best_bid_keys (b : OrderBook) : best_bid b = (keysOf b.bids).head? := by
  cases hb : b.bids <;> simp [best_bid, keysOf, hb]

lemma best_ask_keys (b : OrderBook) : best_ask b = (keysOf b.asks).head? := by
  cases hb : b.asks <;> simp [best_ask, keysOf, hb]

lemma mem_of_head_some (s : List ℚ) (a : ℚ) (ha : s.head? = some a) :
    a ∈ s := by
  cases s with
  | nil => cases ha
  | cons x t =>
    cases ha
    exact List.mem_cons_self _ _

lemma head_rel_of_mem {r : ℚ → ℚ → Prop} (l : List ℚ) (hp : l.Pairwise r)
    (a : ℚ) (hmem : a ∈ l) :
    ∃ hd, l.head? = some hd ∧ (hd = a ∨ r hd a) := by
  cases l with
  | nil => cases hmem
  | cons x t => exact ⟨x, rfl, pairwise_head_rel (x :: t) hp a hmem x rfl⟩

lemma submit_core_inv (b : OrderBook) (o : Order) (hv : ValidOrder o)
    (hs : book_sorted b) (hu : uncrossed b) :
    book_sorted (submit_core b o).2 ∧ uncrossed (submit_core b o).2 := by
  have hsfx : List.IsSuffix (keysOf (submit_match b o).opp)
      (keysOf (b.opposite_book o.side)) := by
    unfold submit_match
    exact match_loop_keys_suffix _ _ _ _ _ _ _ _
  rcases submit_core_book_cases b o with hc | ⟨hc, hrem, hlim⟩
  · rw [hc]
    cases hside : o.side
    case buy =>
      rw [hside] at hsfx
      refine ⟨⟨?_, ?_⟩, ?_⟩
      · exact List.Pairwise.sublist hsfx.sublist hs.1
      · exact hs.2
      · intro pb pa hpb hpa
        have hpb2 : best_bid b = some pb := hpb
        have hpa2 : (keysOf (submit_match b o).opp).head? = some pa := by
          rw [keys_head]
          exact hpa
        have hmem : pa ∈ keysOf b.asks :=
          hsfx.subset (mem_of_head_some _ _ hpa2)
        obtain ⟨hd, hhd, hrel⟩ := head_rel_of_mem (keysOf b.asks) hs.1 pa hmem
        have hlt : pb < hd := hu pb hd hpb2 (by rw [best_ask_keys]; exact hhd)
        rcases hrel with h | h
        · exact h ▸ hlt
        · exact lt_trans hlt h
    case sell =>
      rw [hside] at hsfx
      refine ⟨⟨?_, ?_⟩, ?_⟩
      · exact hs.1
      · exact List.Pairwise.sublist hsfx.sublist hs.2
      · intro pb pa hpb hpa
        have hpa2 : best_ask b = some pa := hpa
        have hpb2 : (keysOf (submit_match b o).opp).head? = some pb := by
          rw [keys_head]
          exact hpb
        have hmem : pb ∈ keysOf b.bids :=
          hsfx.subset (mem_of_head_some _ _ hpb2)
        obtain ⟨hd, hhd, hrel⟩ := head_rel_of_mem (keysOf b.bids) hs.2 pb hmem
        have hlt : hd < pa := hu hd pa (by rw [best_bid_keys]; exact hhd) hpa2
        rcases hrel with h | h
        · exact h ▸ hlt
        · exact lt_trans h hlt
  · have hpn : o.price ≠ none := hv.2.2.2.2 (by rw [hlim]; decide)
    cases hop : o.price with
    | none => exact absurd hop hpn
    | some lp =>
    have hmkt : (o.order_type == OrderType.market) = false := by
      rw [hlim]
      rfl
    rw [hc]
    cases hside : o.side
    case buy =>
      rw [hside] at hsfx
      refine ⟨⟨?_, ?_⟩, ?_⟩
      · exact List.Pairwise.sublist hsfx.sublist hs.1
      · exact ensure_sorted_bids (o.price.getD 0)
          { o with side := Side.buy, remaining := (submit_match b o).rem } b.bids hs.2
      · intro pb pa hpb hpa
        have hpa2 : (keysOf (submit_match b o).opp).head? = some pa := by
          rw [keys_head]
          exact hpa
        have hpb2 : (keysOf (ensure_level_add Side.buy (o.price.getD 0)
            { o with side := Side.buy, remaining := (submit_match b o).rem }
            b.bids)).head? = some pb := by
          rw [keys_head]
          exact hpb
        rcases ensure_head Side.buy (o.price.getD 0)
            { o with side := Side.buy, remaining := (submit_match b o).rem }
            b.bids pb hpb2 with hpbl | hpbl
        · rcases match_loop_exit o.side (o.order_type == OrderType.market) o.price
              o.id b.symbol (b.opposite_book o.side) o.remaining b.trade_seq
              hrem with hnil | ⟨bp, lvl, rest2, hcons, hacc⟩
          · rw [show (submit_match b o).opp = [] from hnil] at hpa2
            simp [keysOf] at hpa2
          · have hpa3 : pa = bp := by
              rw [show (submit_match b o).opp = (bp, lvl) :: rest2 from hcons] at hpa2
              simp only [keysOf, List.map_cons, List.head?] at hpa2
              exact (Option.some.inj hpa2).symm
            have hlp2 : lp < bp := by
              rw [hside] at hacc
              simp [price_acceptable, hmkt, hop] at hacc
              exact hacc
            have hpblp : pb = lp := by
              rw [hpbl, hop]
              rfl
            rw [hpblp, hpa3]
            exact hlp2
        · obtain ⟨hd, hhd, hrel⟩ := head_rel_of_mem (keysOf b.asks) hs.1 pa
            (hsfx.subset (mem_of_head_some _ _ hpa2))
          have hlt : pb < hd := hu pb hd (by rw [best_bid_keys]; exact hpbl)
            (by rw [best_ask_keys]; exact hhd)
          rcases hrel with h | h
          · exact h ▸ hlt
          · exact lt_trans hlt h
    case sell =>
      rw [hside] at hsfx
      refine ⟨⟨?_, ?_⟩, ?_⟩
      · exact ensure_sorted_asks (o.price.getD 0)
          { o with side := Side.sell, remaining := (submit_match b o).rem } b.asks hs.1
      · exact List.Pairwise.sublist hsfx.sublist hs.2
      · intro pb pa hpb hpa
        have hpb2 : (keysOf (submit_match b o).opp).head? = some pb := by
          rw [keys_head]
          exact hpb
        have hpa2 : (keysOf (ensure_level_add Side.sell (o.price.getD 0)
            { o with side := Side.sell, remaining := (submit_match b o).rem }
            b.asks)).head? = some pa := by
          rw [keys_head]
          exact hpa
        rcases ensure_head Side.sell (o.price.getD 0)
            { o with side := Side.sell, remaining := (submit_match b o).rem }
            b.asks pa hpa2 with hpal | hpal
        · rcases match_loop_exit o.side (o.order_type == OrderType.market) o.price
              o.id b.symbol (b.opposite_book o.side) o.remaining b.trade_seq
              hrem with hnil | ⟨bp, lvl, rest2, hcons, hacc⟩
          · rw [show (submit_match b o).opp = [] from hnil] at hpb2
            simp [keysOf] at hpb2
          · have hpb3 : pb = bp := by
              rw [show (submit_match b o).opp = (bp, lvl) :: rest2 from hcons] at hpb2
              simp only [keysOf, List.map_cons, List.head?] at hpb2
              exact (Option.some.inj hpb2).symm
            have hlp2 : bp < lp := by
              rw [hside] at hacc
              simp [price_acceptable, hmkt, hop] at hacc
              exact hacc
            have hpalp : pa = lp := by
              rw [hpal, hop]
              rfl
            rw [hpalp, hpb3]
            exact hlp2
        · obtain ⟨hd, hhd, hrel⟩ := head_rel_of_mem (keysOf b.bids) hs.2 pb
            (hsfx.subset (mem_of_head_some _ _ hpb2))
          have hlt : hd < pa := hu hd pa (by rw [best_bid_keys]; exact hhd)
            (by rw [best_ask_keys]; exact hpal)
          rcases hrel with h | h
          · exact h ▸ hlt
          · exact lt_trans h hlt

lemma submit_inv (b : OrderBook) (o : Order) (hv : ValidOrder o)
    (hs : book_sorted b) (hu : uncrossed b) :
    book_sorted (b.submit_order o).2 ∧ uncrossed (b.submit_order o).2 := by
  unfold OrderBook.submit_order
  by_cases hf : o.order_type = OrderType.fok
  · rw [if_pos hf]
    by_cases he : (b.opposite_book o.side).isEmpty = true
    · simp only [if_pos he]
      exact ⟨hs, hu⟩
    · simp only [if_neg he]
      by_cases hq :
          (if o.order_type = OrderType.market then sum_book_total (b.opposite_book o.side)
            else fok_acceptable_total o.side (o.price.getD 0) (b.opposite_book o.side)) <
            o.quantity
      · simp only [if_pos hq]
        exact ⟨hs, hu⟩
      · simp only [if_neg hq]
        exact submit_core_inv b o hv hs hu
  · rw [if_neg hf]
    exact submit_core_inv b o hv hs hu

lemma cancel_inv (b : OrderBook) (oid : String) (b2 : OrderBook)
    (hc : cancel_in_book b oid = some b2) (hs : book_sorted b)
    (hu : uncrossed b) : book_sorted b2 ∧ uncrossed b2 := by
  cases hl : lookupOrd b.orders oid with
  | none =>
    simp only [cancel_in_book, hl] at hc
    cases hc
  | some ord =>
    simp only [cancel_in_book, hl] at hc
    rw [← Option.some.inj hc]
    have hsub := remove_from_level_keys_sublist ord.price oid (b.same_book ord.side)
    cases hside : ord.side
    case buy =>
      rw [hside] at hsub
      refine ⟨⟨?_, ?_⟩, ?_⟩
      · exact hs.1
      · exact List.Pairwise.sublist hsub hs.2
      · intro pb pa hpb hpa
        have hpa2 : best_ask b = some pa := hpa
        have hpb2 :
            (keysOf (remove_from_level (b.same_book Side.buy) ord.price oid)).head? =
              some pb := by
          rw [keys_head]
          exact hpb
        obtain ⟨hd, hhd, hrel⟩ := head_rel_of_mem (keysOf b.bids) hs.2 pb
          (hsub.subset (mem_of_head_some _ _ hpb2))
        have hlt : hd < pa := hu hd pa (by rw [best_bid_keys]; exact hhd) hpa2
        rcases hrel with h | h
        · exact h ▸ hlt
        · exact lt_trans h hlt
    case sell =>
      rw [hside] at hsub
      refine ⟨⟨?_, ?_⟩, ?_⟩
      · exact List.Pairwise.sublist hsub hs.1
      · exact hs.2
      · intro pb pa hpb hpa
        have hpb2 : best_bid b = some pb := hpb
        have hpa2 :
            (keysOf (remove_from_level (b.same_book Side.sell) ord.price oid)).head? =
              some pa := by
          rw [keys_head]
          exact hpa
        obtain ⟨hd, hhd, hrel⟩ := head_rel_of_mem (keysOf b.asks) hs.1 pa
          (hsub.subset (mem_of_head_some _ _ hpa2))
        have hlt : pb < hd := hu pb hd hpb2 (by rw [best_ask_keys]; exact hhd)
        rcases hrel with h | h
        · exact h ▸ hlt
        · exact lt_trans hlt h

lemma reachedSC_inv (b : OrderBook) (h : ReachedSC b) :
    book_sorted b ∧ uncrossed b := by
  induction h with
  | init sym =>
    constructor
    · constructor <;> simp [empty_book, keysOf]
    · intro pb pa h1 _
      simp [best_bid, empty_book] at h1
  | submit b o _ hv ih => exact submit_inv b o hv ih.1 ih.2
  | cancel b oid b2 _ hc ih => exact cancel_inv b oid b2 hc ih.1 ih.2

/-! ## Claim C6 -/

/-- C6 (amended): in every book state reachable through submits and
cancels only — in particular after any submit returns — the best bid is
strictly below the best ask whenever both sides are non-empty.  The
original claim, which also closes over modifies, is refuted by
c6_crossed_after_modify_counterexample: a modify may insert a crossed
order without re-matching, and the crossing survives later submits. -/
theorem c6_uncrossed_after_submit (b : OrderBook) (h : ReachedSC b) :
    ∀ pb pa, best_bid b = some pb → best_ask b = some pa → pb < pa :=
  fun pb pa h1 h2 => (reachedSC_inv b h).2 pb pa h1 h2

/-- Witness for the amended C6: sell 1 at 101 then buy 1 at 90 leaves
best bid 90 strictly below best ask 101. -/
theorem c6_uncrossed_after_submit_witness : (90 : ℚ) < 101 := by
  have hchain : ReachedSC ((((empty_book "S").submit_order
      ⟨"s1", "S", Side.sell, OrderType.limit, 1, some 101, 1⟩).2).submit_order
      ⟨"b1", "S", Side.buy, OrderType.limit, 1, some 90, 1⟩).2 :=
    ReachedSC.submit _ _
      (ReachedSC.submit _ _ (ReachedSC.init "S")
        ⟨by decide, by norm_num, rfl,
          fun p hp => by rw [← Option.some.inj hp]; norm_num,
          by intro _ hc; cases hc⟩)
      ⟨by decide, by norm_num, rfl,
        fun p hp => by rw [← Option.some.inj hp]; norm_num,
        by intro _ hc; cases hc⟩
  have hl1 : (OrderType.limit = OrderType.fok) = False := eq_false (by decide)
  have hl2 : (OrderType.limit = OrderType.ioc) = False := eq_false (by decide)
  have hl3 : (OrderType.limit = OrderType.market) = False := eq_false (by decide)
  have hl4 : (OrderType.limit = OrderType.limit) = True := eq_true rfl
  have hb1 : (OrderType.limit == OrderType.market) = false := rfl
  refine c6_uncrossed_after_submit _ hchain 90 101 ?_ ?_
  · norm_num +decide [best_bid, hl1, hl2, hl3, hl4, hb1, OrderBook.submit_order, submit_core, submit_match, match_loop,
      match_level, price_acceptable, make_trade, empty_book,
      OrderBook.opposite_book, OrderBook.same_book, OrderBook.set_opposite,
      OrderBook.set_same, OrderBook.with_orders, OrderBook.with_orders_seq,
      ensure_level_add, insertLevel, levelBefore, updateLevel, findLevel,
      eraseLevel, remove_price_if_empty, remove_from_level, eraseById,
      apply_upd, removeIds, upsertOrd, eraseOrd, lookupOrd, modify_in_book,
      PriceLevel.add, List.find?]
  · norm_num +decide [best_ask, hl1, hl2, hl3, hl4, hb1, OrderBook.submit_order, submit_core, submit_match, match_loop,
      match_level, price_acceptable, make_trade, empty_book,
      OrderBook.opposite_book, OrderBook.same_book, OrderBook.set_opposite,
      OrderBook.set_same, OrderBook.with_orders, OrderBook.with_orders_seq,
      ensure_level_add, insertLevel, levelBefore, updateLevel, findLevel,
      eraseLevel, remove_price_if_empty, remove_from_level, eraseById,
      apply_upd, removeIds, upsertOrd, eraseOrd, lookupOrd, modify_in_book,
      PriceLevel.add, List.find?]

/-- The resting sell used by the C6 counterexample. -/
def cex_sell : Order :=
  ⟨"s1", "S", Side.sell, OrderType.limit, 1, some 100, 1⟩

/-- The resting buy later modified to a crossing price. -/
def cex_buy : Order :=
  ⟨"b1", "S", Side.buy, OrderType.limit, 1, some 90, 1⟩

/-- A second buy whose submit returns with the book still crossed. -/
def cex_buy2 : Order :=
  ⟨"b2", "S", Side.buy, OrderType.limit, 1, some 50, 1⟩

/-- The book after submitting cex_sell and cex_buy on a fresh book. -/
def cex_book2 : OrderBook :=
  (((empty_book "S").submit_order cex_sell).2.submit_order cex_buy).2

/-- The book after modifying cex_buy to price 105, crossing the ask at
100 without re-matching. -/
def cex_book3 : OrderBook :=
  (modify_in_book cex_book2 "b1" none (some 105)).getD (empty_book "S")

/-- The book after one more submit (which returns normally). -/
def cex_book4 : OrderBook := (cex_book3.submit_order cex_buy2).2

/-- C6 counterexample: cex_book4 is reachable (submit, submit, modify,
submit), is the state just after a submit returned, both sides are
non-empty, yet best bid 105 is not below best ask 100: the claim as
stated — covering sequences that include modifies — is false on the
code. -/
theorem c6_crossed_after_modify_counterexample :
    Reached cex_book4 ∧
    cex_book4 = (cex_book3.submit_order cex_buy2).2 ∧
    best_bid cex_book4 = some 105 ∧
    best_ask cex_book4 = some 100 ∧
    ¬ (105 : ℚ) < 100 := by
  have hl1 : (OrderType.limit = OrderType.fok) = False := eq_false (by decide)
  have hl2 : (OrderType.limit = OrderType.ioc) = False := eq_false (by decide)
  have hl3 : (OrderType.limit = OrderType.market) = False := eq_false (by decide)
  have hl4 : (OrderType.limit = OrderType.limit) = True := eq_true rfl
  have hb1 : (OrderType.limit == OrderType.market) = false := rfl
  have hmod : modify_in_book cex_book2 "b1" none (some 105) = some cex_book3 := by
    norm_num +decide [cex_book2, cex_book3, cex_sell, cex_buy, hl1, hl2, hl3, hl4, hb1,
      Option.getD, OrderBook.submit_order, submit_core, submit_match, match_loop,
      match_level, price_acceptable, make_trade, empty_book,
      OrderBook.opposite_book, OrderBook.same_book, OrderBook.set_opposite,
      OrderBook.set_same, OrderBook.with_orders, OrderBook.with_orders_seq,
      ensure_level_add, insertLevel, levelBefore, updateLevel, findLevel,
      eraseLevel, remove_price_if_empty, remove_from_level, eraseById,
      apply_upd, removeIds, upsertOrd, eraseOrd, lookupOrd, modify_in_book,
      PriceLevel.add, List.find?]
  refine ⟨?_, rfl, ?_, ?_, by norm_num⟩
  · apply Reached.submit cex_book3 cex_buy2
    · apply Reached.modify cex_book2 "b1" none (some 105) cex_book3
      · apply Reached.submit _ cex_buy
        · apply Reached.submit _ cex_sell
          · exact Reached.init "S"
          · exact ⟨by decide, by norm_num [cex_sell], rfl,
              fun p hp => by rw [← Option.some.inj hp]; norm_num,
              by intro _ hc; cases hc⟩
        · exact ⟨by decide, by norm_num [cex_buy], rfl,
            fun p hp => by rw [← Option.some.inj hp]; norm_num,
            by intro _ hc; cases hc⟩
      · exact hmod
    · exact ⟨by decide, by norm_num [cex_buy2], rfl,
        fun p hp => by rw [← Option.some.inj hp]; norm_num,
        by intro _ hc; cases hc⟩
  · norm_num +decide [best_bid, cex_book4, cex_book3, cex_book2, cex_sell, cex_buy,
      cex_buy2, hl1, hl2, hl3, hl4, hb1, Option.getD, OrderBook.submit_order, submit_core, submit_match, match_loop,
      match_level, price_acceptable, make_trade, empty_book,
      OrderBook.opposite_book, OrderBook.same_book, OrderBook.set_opposite,
      OrderBook.set_same, OrderBook.with_orders, OrderBook.with_orders_seq,
      ensure_level_add, insertLevel, levelBefore, updateLevel, findLevel,
      eraseLevel, remove_price_if_empty, remove_from_level, eraseById,
      apply_upd, removeIds, upsertOrd, eraseOrd, lookupOrd, modify_in_book,
      PriceLevel.add, List.find?]
  · norm_num +decide [best_ask, cex_book4, cex_book3, cex_book2, cex_sell, cex_buy,
      cex_buy2, hl1, hl2, hl3, hl4, hb1, Option.getD, OrderBook.submit_order, submit_core, submit_match, match_loop,
      match_level, price_acceptable, make_trade, empty_book,
      OrderBook.opposite_book, OrderBook.same_book, OrderBook.set_opposite,
      OrderBook.set_same, OrderBook.with_orders, OrderBook.with_orders_seq,
      ensure_level_add, insertLevel, levelBefore, updateLevel, findLevel,
      eraseLevel, remove_price_if_empty, remove_from_level, eraseById,
      apply_upd, removeIds, upsertOrd, eraseOrd, lookupOrd, modify_in_book,
      PriceLevel.add, List.find?]

/-! ## Claim C9 -/

/-- An absent id means the index scan finds no matching key. -/
lemma any_false_of_lookup_none (k : String) :
    ∀ l : List (String × Order), lookupOrd l k = none →
      l.any (fun kv => kv.1 = k) = false := by
  intro l
  induction l with
  | nil => intro _; rfl
  | cons kv rest ih =>
    intro h
    by_cases hk : kv.1 = k
    · simp only [lookupOrd, if_pos hk] at h
      cases h
    · simp only [lookupOrd, if_neg hk] at h
      simp [List.any_cons, hk, ih h]

/-- The inner loop emits at least one trade when the incoming order still
has remaining and the level queue is non-empty. -/
lemma match_level_trades_ne (aggr : Side) (tid sym : String) (bp : ℚ)
    (resting : Order) (rest : List Order) (rem tot : ℚ) (seq : ℕ)
    (h0 : 0 < rem) :
    (match_level aggr tid sym bp rem (resting :: rest) tot seq).trades ≠ [] := by
  simp only [match_level, if_pos h0]
  by_cases hr : resting.remaining - min rem resting.remaining = 0
  · simp [if_pos hr]
  · simp [if_neg hr]

/-- A matching loop that emitted no trades left everything untouched:
on a side whose levels all have non-empty queues, an empty trade list
forces the loop to have stopped at the first level (or an empty side),
so remaining, the opposite side, the deletions and the trade counter all
come back unchanged. -/
lemma match_loop_noop (aggr : Side) (isMkt : Bool) (oprice : Option ℚ)
    (tid sym : String) :
    ∀ (opp : List (ℚ × PriceLevel)) (rem : ℚ) (seq : ℕ),
      levels_ok opp →
      (match_loop aggr isMkt oprice tid sym rem opp seq).trades = [] →
      match_loop aggr isMkt oprice tid sym rem opp seq =
        { rem := rem, opp := opp, trades := [], removed := [], upd := [],
          seq := seq } := by
  intro opp
  induction opp with
  | nil => intro rem seq _ _; simp [match_loop]
  | cons e rest ih =>
    intro rem seq hok ht
    obtain ⟨bp, lvl⟩ := e
    by_cases h0 : 0 < rem
    · by_cases ha : price_acceptable aggr isMkt oprice bp = true
      · exfalso
        have hq := (hok (bp, lvl) (List.mem_cons_self _ _)).1
        simp only [match_loop, if_pos h0, if_pos ha] at ht
        cases hql : lvl.queue with
        | nil => exact hq hql
        | cons r rs =>
          rw [hql] at ht
          by_cases he : (match_level aggr tid sym bp rem (r :: rs)
              lvl.total seq).queue.isEmpty = true
          · rw [if_pos he] at ht
            have ht2 : (match_level aggr tid sym bp rem (r :: rs)
                lvl.total seq).trades ++
                (match_loop aggr isMkt oprice tid sym
                  (match_level aggr tid sym bp rem (r :: rs) lvl.total seq).rem
                  rest
                  (match_level aggr tid sym bp rem (r :: rs) lvl.total seq).seq).trades =
                [] := ht
            exact match_level_trades_ne aggr tid sym bp r rs rem lvl.total seq h0
              (List.append_eq_nil.mp ht2).1
          · rw [if_neg he] at ht
            exact match_level_trades_ne aggr tid sym bp r rs rem lvl.total seq h0 ht
      · simp [match_loop, if_pos h0, if_neg ha]
    · simp [match_loop, if_neg h0]

/-- Deleting a freshly appended id from the index restores it. -/
lemma eraseOrd_append_fresh (k : String) (v : Order) :
    ∀ l : List (String × Order), l.any (fun kv => kv.1 = k) = false →
      eraseOrd (l ++ [(k, v)]) k = l := by
  intro l
  induction l with
  | nil => intro _; simp [eraseOrd]
  | cons kv rest ih =>
    intro h
    simp only [List.any_cons, Bool.or_eq_false_iff] at h
    have hk : ¬ (kv.1 = k) := by simpa using h.1
    simp only [List.cons_append, eraseOrd, if_neg hk]
    show kv :: eraseOrd (rest ++ [(k, v)]) k = kv :: rest
    rw [ih (by simpa using h.2)]

/-- The id scan over a queue with a freshly appended order finds exactly
that order when no earlier queue member carries the id. -/
lemma find_append_self (oid : String) (o : Order) (ho : o.id = oid) :
    ∀ q : List Order, (∀ x ∈ q, x.id ≠ oid) →
      (q ++ [o]).find? (fun x => x.id = oid) = some o := by
  intro q
  induction q with
  | nil =>
    intro _
    rw [List.nil_append, List.find?_cons_of_pos _ (by simp [ho])]
  | cons x rest ih =>
    intro h
    have hx : ¬ (x.id = oid) := h x (List.mem_cons_self _ _)
    rw [List.cons_append, List.find?_cons_of_neg _ (by simp [hx])]
    exact ih (fun y hy => h y (List.mem_cons_of_mem _ hy))

/-- Removing a freshly appended order from a queue restores the queue. -/
lemma eraseById_append_self (oid : String) (o : Order) (ho : o.id = oid) :
    ∀ q : List Order, (∀ x ∈ q, x.id ≠ oid) →
      eraseById (q ++ [o]) oid = q := by
  intro q
  induction q with
  | nil => intro _; simp [eraseById, ho]
  | cons x rest ih =>
    intro h
    have hx : ¬ (x.id = oid) := h x (List.mem_cons_self _ _)
    simp only [List.cons_append, eraseById, if_neg hx]
    show x :: eraseById (rest ++ [o]) oid = x :: rest
    rw [ih (fun y hy => h y (List.mem_cons_of_mem _ hy))]

/-- Writing a constant level twice at the same key is the same as writing
it once. -/
lemma updateLevel_const_collapse (p : ℚ) (g : PriceLevel → PriceLevel)
    (lvl2 : PriceLevel) :
    ∀ lst : List (ℚ × PriceLevel),
      updateLevel (updateLevel lst p g) p (fun _ => lvl2) =
        updateLevel lst p (fun _ => lvl2) := by
  intro lst
  induction lst with
  | nil => rfl
  | cons e rest ih =>
    by_cases hk : e.1 = p
    · simp only [updateLevel, if_pos hk]
      simp [updateLevel]
    · simp only [updateLevel, if_neg hk, ih]

/-- Writing back the level a key already stores changes nothing. -/
lemma updateLevel_self (p : ℚ) :
    ∀ (lst : List (ℚ × PriceLevel)) (lvl : PriceLevel),
      findLevel lst p = some lvl →
      updateLevel lst p (fun _ => lvl) = lst := by
  intro lst
  induction lst with
  | nil => intro lvl h; cases h
  | cons e rest ih =>
    intro lvl h
    by_cases hk : e.1 = p
    · simp only [findLevel, if_pos hk] at h
      cases h
      simp only [updateLevel, if_pos hk]
      have he : (p, e.2) = e := by rw [← hk]
      rw [he]
    · simp only [findLevel, if_neg hk] at h
      simp only [updateLevel, if_neg hk, ih lvl h]

/-- Updating at a key absent from the original list hits exactly the
freshly inserted level. -/
lemma updateLevel_insertLevel_fresh (s : Side) (p : ℚ) (lvl : PriceLevel)
    (f : PriceLevel → PriceLevel) :
    ∀ lst : List (ℚ × PriceLevel), (∀ e ∈ lst, e.1 ≠ p) →
      updateLevel (insertLevel s p lvl lst) p f =
        insertLevel s p (f lvl) lst := by
  intro lst
  induction lst with
  | nil => intro _; simp [insertLevel, updateLevel]
  | cons e rest ih =>
    intro h
    have he : e.1 ≠ p := h e (List.mem_cons_self _ _)
    simp only [insertLevel]
    by_cases hb : levelBefore s p e.1 = true
    · simp only [if_pos hb]
      simp [updateLevel]
    · simp only [if_neg hb, updateLevel, if_neg he]
      rw [ih (fun x hx => h x (List.mem_cons_of_mem _ hx))]

/-- Erasing a key absent from the original list removes exactly the
freshly inserted level. -/
lemma eraseLevel_insertLevel_fresh (s : Side) (p : ℚ) (lvl : PriceLevel) :
    ∀ lst : List (ℚ × PriceLevel), (∀ e ∈ lst, e.1 ≠ p) →
      eraseLevel (insertLevel s p lvl lst) p = lst := by
  intro lst
  induction lst with
  | nil => intro _; simp [insertLevel, eraseLevel]
  | cons e rest ih =>
    intro h
    have he : e.1 ≠ p := h e (List.mem_cons_self _ _)
    simp only [insertLevel]
    by_cases hb : levelBefore s p e.1 = true
    · simp only [if_pos hb]
      simp [eraseLevel]
    · simp only [if_neg hb, eraseLevel, if_neg he]
      rw [ih (fun x hx => h x (List.mem_cons_of_mem _ hx))]

/-- The cancel-route removal block undoes the resting insertion: removing
the freshly rested order's id from the level at its price restores the
same-side map, deleting the price when the level was created for this
order alone. -/
lemma remove_from_level_ensure (s : Side) (p : ℚ) (o : Order)
    (same : List (ℚ × PriceLevel)) (hok : levels_ok same)
    (hfresh : ∀ e ∈ same, ∀ x ∈ e.2.queue, x.id ≠ o.id) :
    remove_from_level (ensure_level_add s p o same) (some p) o.id = same := by
  by_cases hany : same.any (fun e => e.1 = p) = true
  · obtain ⟨lvl, hfl⟩ := findLevel_of_any_true p same hany
    have hens : ensure_level_add s p o same =
        updateLevel same p (fun l => l.add o) := by
      unfold ensure_level_add
      rw [if_pos hany]
    have hfl2 : findLevel (updateLevel same p (fun l => l.add o)) p =
        some (lvl.add o) := findLevel_updateLevel p _ same lvl hfl
    have hqf : ∀ x ∈ lvl.queue, x.id ≠ o.id :=
      hfresh (p, lvl) (findLevel_mem p same lvl hfl)
    have hfind : (lvl.add o).queue.find? (fun x => x.id = o.id) = some o := by
      show (lvl.queue ++ [o]).find? (fun x => x.id = o.id) = some o
      exact find_append_self o.id o rfl lvl.queue hqf
    rw [hens]
    simp only [remove_from_level, hfl2, hfind]
    have hlvl : PriceLevel.mk (eraseById (lvl.add o).queue o.id)
        ((lvl.add o).total - o.remaining) = lvl := by
      have h1 : eraseById (lvl.add o).queue o.id = lvl.queue := by
        show eraseById (lvl.queue ++ [o]) o.id = lvl.queue
        exact eraseById_append_self o.id o rfl lvl.queue hqf
      have h2 : (lvl.add o).total - o.remaining = lvl.total := by
        show lvl.total + o.remaining - o.remaining = lvl.total
        ring
      rw [h1, h2]
    rw [hlvl, updateLevel_const_collapse, updateLevel_self p same lvl hfl]
    have hq : lvl.queue ≠ [] := (hok (p, lvl) (findLevel_mem p same lvl hfl)).1
    simp only [remove_price_if_empty, hfl]
    rw [if_neg (by simpa [List.isEmpty_iff] using hq)]
  · have hfa : same.any (fun e => e.1 = p) = false := by
      cases hb : same.any (fun e => e.1 = p)
      · rfl
      · exact absurd hb hany
    have hne := keys_ne_of_any_false p same hfa
    have hens : ensure_level_add s p o same =
        insertLevel s p (PriceLevel.add { queue := [], total := 0 } o) same := by
      unfold ensure_level_add
      rw [if_neg hany]
    rw [hens]
    have hfl : findLevel
        (insertLevel s p (PriceLevel.add { queue := [], total := 0 } o) same) p =
        some (PriceLevel.add { queue := [], total := 0 } o) :=
      findLevel_insertLevel s p _ same hne
    have hfind : (PriceLevel.add { queue := [], total := 0 } o).queue.find?
        (fun x => x.id = o.id) = some o := by
      show ([] ++ [o]).find? (fun x => x.id = o.id) = some o
      exact find_append_self o.id o rfl []
        (fun x hx => absurd hx (List.not_mem_nil x))
    simp only [remove_from_level, hfl, hfind]
    have hempty : PriceLevel.mk
        (eraseById (PriceLevel.add { queue := [], total := 0 } o).queue o.id)
        ((PriceLevel.add { queue := [], total := 0 } o).total - o.remaining) =
        { queue := [], total := 0 } := by
      have h1 : eraseById (PriceLevel.add { queue := [], total := 0 } o).queue
          o.id = [] := by
        show eraseById ([] ++ [o]) o.id = []
        exact eraseById_append_self o.id o rfl []
          (fun x hx => absurd hx (List.not_mem_nil x))
      have h2 : (PriceLevel.add { queue := [], total := 0 } o).total -
          o.remaining = 0 := by
        show (0 : ℚ) + o.remaining - o.remaining = 0
        ring
      rw [h1, h2]
    rw [hempty, updateLevel_insertLevel_fresh s p _ _ same hne]
    have hfl0 : findLevel
        (insertLevel s p ({ queue := [], total := 0 } : PriceLevel) same) p =
        some { queue := [], total := 0 } := findLevel_insertLevel s p _ same hne
    simp only [remove_price_if_empty, hfl0]
    rw [if_pos (show (([] : List Order).isEmpty = true) from rfl)]
    exact eraseLevel_insertLevel_fresh s p _ same hne

/-- Writing back the opposite side a book already holds changes nothing. -/
lemma set_opposite_self (b : OrderBook) (s : Side) :
    b.set_opposite s (b.opposite_book s) = b := by
  cases s <;> rfl

/-- Writing back the original same-side map and index over any intermediate
writes of the same fields restores the book. -/
lemma set_same_assemble (b : OrderBook) (s : Side)
    (X : List (ℚ × PriceLevel)) (Y : List (String × Order)) :
    ((((b.set_same s X).with_orders Y).set_same s
      (b.same_book s)).with_orders b.orders) = b := by
  cases s <;> rfl

/-- An id held by no book's index makes the cancel route fall through every
book and end in the 404. -/
lemma cancel_route_none (oid : String) :
    ∀ bs : List OrderBook, (∀ bk ∈ bs, lookupOrd bk.orders oid = none) →
      cancel_route bs oid = none := by
  intro bs
  induction bs with
  | nil => intro _; rfl
  | cons bk rest ih =>
    intro h
    have h1 : cancel_in_book bk oid = none := by
      simp only [cancel_in_book, h bk (List.mem_cons_self _ _)]
    simp only [cancel_route, h1,
      ih (fun x hx => h x (List.mem_cons_of_mem _ hx)), Option.map_none']

/-- C9: a limit order with a fresh id that rests without trading is undone
exactly by a cancel: the cancel returns the book that was there before the
submit (same levels and totals, the id gone from the index, a level
created only for this order deleted); and canceling an id resting on no
book yields the 404 outcome with no state change. -/
theorem c9_submit_cancel_roundtrip :
    (∀ (b : OrderBook) (o : Order) (p : ℚ),
        o.order_type = OrderType.limit →
        o.price = some p →
        lookupOrd b.orders o.id = none →
        (∀ e ∈ b.same_book o.side, ∀ x ∈ e.2.queue, x.id ≠ o.id) →
        book_levels_ok b →
        (b.submit_order o).1.status = OrderStatus.resting →
        cancel_in_book (b.submit_order o).2 o.id = some b) ∧
    (∀ (bs : List OrderBook) (oid : String),
        (∀ bk ∈ bs, lookupOrd bk.orders oid = none) →
        cancel_route bs oid = none) := by
  constructor
  · intro b o p htype hprice hfresh hqfresh hlv hstat
    have hnf : ¬ (o.order_type = OrderType.fok) := by rw [htype]; decide
    have hni : ¬ (o.order_type = OrderType.ioc) := by rw [htype]; decide
    have hsub : b.submit_order o = submit_core b o := by
      unfold OrderBook.submit_order
      rw [if_neg hnf]
    rw [hsub] at hstat
    by_cases hrem : 0 < (submit_match b o).rem
    · have hcond : 0 < (submit_match b o).rem ∧ o.order_type = OrderType.limit :=
        ⟨hrem, htype⟩
      have hcore : submit_core b o =
          ({ order_id := o.id,
             status := if (submit_match b o).trades.isEmpty then OrderStatus.resting
               else OrderStatus.partially_filled,
             reason := none, trades := (submit_match b o).trades },
           (((b.set_opposite o.side (submit_match b o).opp).with_orders_seq
               (apply_upd (removeIds b.orders (submit_match b o).removed)
                 (submit_match b o).upd) (submit_match b o).seq).set_same o.side
              (ensure_level_add o.side (o.price.getD 0)
                { o with remaining := (submit_match b o).rem }
                (((b.set_opposite o.side (submit_match b o).opp).with_orders_seq
                  (apply_upd (removeIds b.orders (submit_match b o).removed)
                    (submit_match b o).upd) (submit_match b o).seq).same_book
                  o.side))).with_orders
            (upsertOrd
              (apply_upd (removeIds b.orders (submit_match b o).removed)
                (submit_match b o).upd) o.id
              { o with remaining := (submit_match b o).rem })) := by
        unfold submit_core
        rw [if_neg hni, if_neg hnf, if_pos hcond]
      rw [hcore] at hstat
      have htr : (submit_match b o).trades.isEmpty = true := by
        by_cases ht : (submit_match b o).trades.isEmpty = true
        · exact ht
        · rw [if_neg ht] at hstat
          exact OrderStatus.noConfusion hstat
      have htl : (submit_match b o).trades = [] := by
        simpa [List.isEmpty_iff] using htr
      have hok_opp : levels_ok (b.opposite_book o.side) :=
        levels_ok_opp_of_book b o.side hlv
      have htl2 : (match_loop o.side (o.order_type == OrderType.market) o.price
          o.id b.symbol o.remaining (b.opposite_book o.side) b.trade_seq).trades =
          [] := htl
      have hnoop : submit_match b o =
          { rem := o.remaining, opp := b.opposite_book o.side, trades := [],
            removed := [], upd := [], seq := b.trade_seq } :=
        match_loop_noop o.side (o.order_type == OrderType.market) o.price o.id
          b.symbol (b.opposite_book o.side) o.remaining b.trade_seq hok_opp htl2
      have h_opp : (submit_match b o).opp = b.opposite_book o.side := by rw [hnoop]
      have h_removed : (submit_match b o).removed = [] := by rw [hnoop]
      have h_upd : (submit_match b o).upd = ([] : List (String × ℚ)) := by
        rw [hnoop]
      have h_seq : (submit_match b o).seq = b.trade_seq := by rw [hnoop]
      have h_rem : (submit_match b o).rem = o.remaining := by rw [hnoop]
      have hgetd : o.price.getD 0 = p := by rw [hprice]; rfl
      have hbook2 : (submit_core b o).2 =
          (b.set_same o.side
            (ensure_level_add o.side p o (b.same_book o.side))).with_orders
            (upsertOrd b.orders o.id o) := by
        rw [hcore]
        rw [h_removed, h_upd, h_opp, h_seq, h_rem, set_opposite_self, hgetd]
        rfl
      rw [hsub, hbook2]
      have h_any : (b.orders.any fun kv => kv.1 = o.id) = false :=
        any_false_of_lookup_none o.id b.orders hfresh
      have h_up : upsertOrd b.orders o.id o = b.orders ++ [(o.id, o)] := by
        unfold upsertOrd
        rw [if_neg (by simp [h_any])]
      have h_lk : lookupOrd (upsertOrd b.orders o.id o) o.id = some o :=
        lookupOrd_upsert_self b.orders o.id o
      simp only [cancel_in_book, orders_with_orders, h_lk]
      rw [same_book_with_orders, same_book_set_same, hprice]
      rw [remove_from_level_ensure o.side p o (b.same_book o.side)
        (levels_ok_same_of_book b o.side hlv) hqfresh]
      rw [h_up, eraseOrd_append_fresh o.id o b.orders h_any]
      rw [set_same_assemble]
    · exfalso
      have hcond : ¬ (0 < (submit_match b o).rem ∧
          o.order_type = OrderType.limit) := fun hc => hrem hc.1
      have hcore : submit_core b o =
          ({ order_id := o.id, status := OrderStatus.filled, reason := none,
             trades := (submit_match b o).trades },
           (b.set_opposite o.side (submit_match b o).opp).with_orders_seq
             (apply_upd (removeIds b.orders (submit_match b o).removed)
               (submit_match b o).upd) (submit_match b o).seq) := by
        unfold submit_core
        rw [if_neg hni, if_neg hnf, if_neg hcond, if_neg hrem]
      rw [hcore] at hstat
      exact OrderStatus.noConfusion hstat
  · exact fun bs oid h => cancel_route_none oid bs h

/-- The resting limit order of the C9 witness. -/
def w9o : Order :=
  ⟨"w9", "S", Side.buy, OrderType.limit, 2, some 7, 2⟩

/-- Witness for C9: submitting w9o to a fresh book and canceling it by id
returns exactly the fresh book; canceling an unknown id over the registry
yields the 404 outcome. -/
theorem c9_submit_cancel_roundtrip_witness :
    cancel_in_book ((empty_book "S").submit_order w9o).2 w9o.id =
      some (empty_book "S") ∧
    cancel_route [empty_book "S"] "zzz" = none := by
  constructor
  · exact c9_submit_cancel_roundtrip.1 (empty_book "S") w9o 7 rfl rfl rfl
      (by intro e he; exact absurd he (List.not_mem_nil e))
      ⟨fun e he => absurd he (List.not_mem_nil e),
        fun e he => absurd he (List.not_mem_nil e)⟩
      rfl
  · exact c9_submit_cancel_roundtrip.2 [empty_book "S"] "zzz"
      (by intro bk hbk; rw [List.mem_singleton] at hbk; subst hbk; rfl)

/-! ## Claim C10 -/

/-- C10: a modify that supplies a quantity resets both quantity and
remaining of the resting order to the new quantity, discarding any
partial-fill progress, appends it at the (possibly new) price level tail,
and performs no matching: the opposite side and the trade counter are
untouched even when the new price crosses the opposite side. -/
theorem c10_modify_resets_remaining (b : OrderBook) (oid : String)
    (ord : Order) (q : ℚ) (popt : Option ℚ) (p0 : ℚ)
    (hfind : lookupOrd b.orders oid = some ord) (hp : ord.price = some p0) :
    ∃ b2 ord2,
      modify_in_book b oid (some q) popt = some b2 ∧
      ord2.quantity = q ∧ ord2.remaining = q ∧
      lookupOrd b2.orders oid = some ord2 ∧
      (∃ lvl, findLevel (b2.same_book ord.side) (popt.getD p0) = some lvl ∧
        lvl.queue.getLast? = some ord2) ∧
      b2.opposite_book ord.side = b.opposite_book ord.side ∧
      b2.trade_seq = b.trade_seq := by
  cases popt with
  | none =>
    have hmod : modify_in_book b oid (some q) none =
        some ((OrderBook.set_same b ord.side
            (ensure_level_add ord.side p0 { ord with quantity := q, remaining := q }
              (remove_from_level (b.same_book ord.side) ord.price oid))).with_orders
          (upsertOrd b.orders oid { ord with quantity := q, remaining := q })) := by
      unfold modify_in_book
      rw [hfind]
      simp only [hp]
    refine ⟨_, { ord with quantity := q, remaining := q }, hmod, rfl, rfl, ?_, ?_, ?_, ?_⟩
    · exact lookupOrd_upsert_self _ _ _
    · obtain ⟨q0, t0, hfl⟩ :=
        findLevel_ensure_level_add ord.side p0 { ord with quantity := q, remaining := q }
          (remove_from_level (b.same_book ord.side) ord.price oid)
      refine ⟨PriceLevel.mk (q0 ++ [{ ord with quantity := q, remaining := q }])
        (t0 + ({ ord with quantity := q, remaining := q } : Order).remaining), ?_, ?_⟩
      · rw [same_book_with_orders, same_book_set_same]
        exact hfl
      · exact List.getLast?_concat _
    · rw [opposite_book_with_orders, opposite_book_set_same]
    · rw [trade_seq_with_orders, trade_seq_set_same]
  | some pp =>
    have hmod : modify_in_book b oid (some q) (some pp) =
        some ((OrderBook.set_same b ord.side
            (ensure_level_add ord.side pp
              { ord with quantity := q, remaining := q, price := some pp }
              (remove_from_level (b.same_book ord.side) ord.price oid))).with_orders
          (upsertOrd b.orders oid
            { ord with quantity := q, remaining := q, price := some pp })) := by
      unfold modify_in_book
      rw [hfind]
    refine ⟨_, { ord with quantity := q, remaining := q, price := some pp },
      hmod, rfl, rfl, ?_, ?_, ?_, ?_⟩
    · exact lookupOrd_upsert_self _ _ _
    · obtain ⟨q0, t0, hfl⟩ :=
        findLevel_ensure_level_add ord.side pp
          { ord with quantity := q, remaining := q, price := some pp }
          (remove_from_level (b.same_book ord.side) ord.price oid)
      refine ⟨PriceLevel.mk
        (q0 ++ [{ ord with quantity := q, remaining := q, price := some pp }])
        (t0 +
          ({ ord with quantity := q, remaining := q, price := some pp } : Order).remaining),
        ?_, ?_⟩
      · rw [same_book_with_orders, same_book_set_same]
        exact hfl
      · exact List.getLast?_concat _
    · rw [opposite_book_with_orders, opposite_book_set_same]
    · rw [trade_seq_with_orders, trade_seq_set_same]

/-- Witness for C10: a half-filled resting bid (quantity 1, remaining 1/2)
is modified to quantity 2 at price 200, which crosses the resting ask at
101; it rests with remaining 2 and no trade happens. -/
theorem c10_modify_resets_remaining_witness :
    ∃ b2 ord2,
      modify_in_book
        ⟨"S", [(101, ⟨[⟨"s2", "S", Side.sell, OrderType.limit, 1, some 101, 1⟩], 1⟩)],
          [(100, ⟨[⟨"h", "S", Side.buy, OrderType.limit, 1, some 100, 1/2⟩], 1/2⟩)],
          [("h", ⟨"h", "S", Side.buy, OrderType.limit, 1, some 100, 1/2⟩),
           ("s2", ⟨"s2", "S", Side.sell, OrderType.limit, 1, some 101, 1⟩)], 3⟩
        "h" (some 2) (some 200) = some b2 ∧
      ord2.quantity = 2 ∧ ord2.remaining = 2 ∧
      lookupOrd b2.orders "h" = some ord2 ∧
      (∃ lvl, findLevel (b2.same_book Side.buy) ((some (200 : ℚ)).getD 100) = some lvl ∧
        lvl.queue.getLast? = some ord2) ∧
      b2.opposite_book Side.buy =
        OrderBook.opposite_book
          ⟨"S", [(101, ⟨[⟨"s2", "S", Side.sell, OrderType.limit, 1, some 101, 1⟩], 1⟩)],
            [(100, ⟨[⟨"h", "S", Side.buy, OrderType.limit, 1, some 100, 1/2⟩], 1/2⟩)],
            [("h", ⟨"h", "S", Side.buy, OrderType.limit, 1, some 100, 1/2⟩),
             ("s2", ⟨"s2", "S", Side.sell, OrderType.limit, 1, some 101, 1⟩)], 3⟩
          Side.buy ∧
      b2.trade_seq = 3 :=
  c10_modify_resets_remaining _ "h"
    ⟨"h", "S", Side.buy, OrderType.limit, 1, some 100, 1/2⟩ 2 (some 200) 100
    (by norm_num [lookupOrd]) rfl

end Engine
